import Mathlib

/-!
# Verification of `csrc/cpu/cpu_types_generic.hpp`

A shallow embedding of the generic CPU vector type `vec_op::GenericVec<T, N>` and of the
helpers around it (`storeFP32`, `fma`), followed by theorems about them.

* The template parameter `T` becomes a Lean type with a `Scalar` instance that supplies
  `static_cast<T>(0)` and the four arithmetic operators.
* `T reg[N]` becomes a list of exactly `N` lanes.
* A raw pointer becomes a buffer (a list) together with an offset; an access outside the
  buffer, which is undefined behaviour in C++, is the result `none`.
* The scalar types `float`, `std::float16_t` and `c10::BFloat16` are IEEE-754 style binary
  formats with round-to-nearest-even arithmetic, modelled exactly on integers.
-/

namespace vec_op

/-! ## Scalar element types -/

/-- What `GenericVec<T, N>` needs from its element type `T`: the value `static_cast<T>(0)`
(which is also the value-initialised `T{}`) and the operators behind `std::plus<T>`,
`std::minus<T>`, `std::multiplies<T>` and `std::divides<T>`. -/
class Scalar (T : Type) where
  zero : T
  add : T → T → T
  sub : T → T → T
  mul : T → T → T
  div : T → T → T

/-- A binary floating-point format: width of the exponent field and of the fraction field. -/
structure FloatFormat where
  ebits : Nat
  mbits : Nat
deriving DecidableEq, Repr

/-- The format of `float` (IEEE-754 binary32). -/
def binary32 : FloatFormat := ⟨8, 23⟩

/-- The format of `std::float16_t` (IEEE-754 binary16). -/
def binary16 : FloatFormat := ⟨5, 10⟩

/-- The format of `c10::BFloat16`: the exponent of binary32 and a 7-bit fraction. -/
def bfloat16 : FloatFormat := ⟨8, 7⟩

/-- Exponent of the unit in which finite magnitudes are counted: the smallest positive
(subnormal) value of the format is `2 ^ (-(scale fmt))`; 149 for binary32. -/
def FloatFormat.scale (fmt : FloatFormat) : Nat := 2 ^ (fmt.ebits - 1) - 2 + fmt.mbits

/-- Precision of the format in bits, the hidden bit included. -/
def FloatFormat.prec (fmt : FloatFormat) : Nat := fmt.mbits + 1

/-- First magnitude (in units of the smallest subnormal) that is too large to be finite. -/
def FloatFormat.overflow (fmt : FloatFormat) : Nat := 2 ^ fmt.prec * 2 ^ (2 ^ fmt.ebits - 3)

/-- A value of a floating-point format. All NaNs are identified. A finite value is
`(-1) ^ neg * mag * 2 ^ (-(scale fmt))`, so that `fin true 0` is the negative zero. -/
inductive Flt (fmt : FloatFormat) where
  | nan : Flt fmt
  | inf (neg : Bool) : Flt fmt
  | fin (neg : Bool) (mag : Nat) : Flt fmt
deriving DecidableEq, Repr

/-- Auxiliary loop of `bitLength`. -/
def bitLengthAux : Nat → Nat → Nat
  | 0, _ => 0
  | fuel + 1, n => if n = 0 then 0 else bitLengthAux fuel (n / 2) + 1

/-- Number of binary digits of `n` (0 for 0). -/
def bitLength (n : Nat) : Nat := bitLengthAux n n

namespace Flt

variable {fmt : FloatFormat}

/-- Round the exact magnitude `M / 2 ^ d` (in units of the smallest subnormal) to the nearest
value of the format, ties to even; a magnitude beyond the largest finite one gives infinity. -/
def round (fmt : FloatFormat) (neg : Bool) (M d : Nat) : Flt fmt :=
  let s := max d (bitLength M - fmt.prec)
  let q := M / 2 ^ s
  let r := M % 2 ^ s
  let q1 := if 2 ^ s < 2 * r ∨ (2 * r = 2 ^ s ∧ q % 2 = 1) then q + 1 else q
  let u := q1 * 2 ^ (s - d)
  if u < fmt.overflow then fin neg u else inf neg

/-- The signed magnitude of a finite value. -/
def signed (neg : Bool) (mag : Nat) : Int := if neg then -(mag : Int) else (mag : Int)

/-- Unary minus. -/
def neg : Flt fmt → Flt fmt
  | nan => nan
  | inf s => inf (!s)
  | fin s m => fin (!s) m

/-- Addition, rounded to nearest even. -/
def add : Flt fmt → Flt fmt → Flt fmt
  | nan, _ => nan
  | _, nan => nan
  | inf a, inf b => if a = b then inf a else nan
  | inf a, fin _ _ => inf a
  | fin _ _, inf b => inf b
  | fin a x, fin b y =>
    let s : Int := signed a x + signed b y
    if s = 0 then fin (a && b) 0 else round fmt (decide (s < 0)) s.natAbs 0

/-- Subtraction: `x - y` is `x + (-y)`. -/
def sub (x y : Flt fmt) : Flt fmt := add x (neg y)

/-- Multiplication, rounded to nearest even. -/
def mul : Flt fmt → Flt fmt → Flt fmt
  | nan, _ => nan
  | _, nan => nan
  | inf a, inf b => inf (xor a b)
  | inf a, fin b y => if y = 0 then nan else inf (xor a b)
  | fin a x, inf b => if x = 0 then nan else inf (xor a b)
  | fin a x, fin b y => round fmt (xor a b) (x * y) fmt.scale

/-- Division, rounded to nearest even. The quotient is computed with one extra binary digit
and a sticky bit below it. -/
def div : Flt fmt → Flt fmt → Flt fmt
  | nan, _ => nan
  | _, nan => nan
  | inf _, inf _ => nan
  | inf a, fin b _ => inf (xor a b)
  | fin a _, inf b => fin (xor a b) 0
  | fin a x, fin b y =>
    if y = 0 then (if x = 0 then nan else inf (xor a b))
    else
      let n := x * 2 ^ (fmt.scale + 1)
      round fmt (xor a b) (2 * (n / y) + (if n % y = 0 then 0 else 1)) 2

/-- Conversion of a natural number, as in `static_cast<T>(n)`. -/
def ofNat (fmt : FloatFormat) (n : Nat) : Flt fmt := round fmt false (n * 2 ^ fmt.scale) 0

/-- The value denoted by a bit pattern of the format (sign, exponent field, fraction field). -/
def ofBits (fmt : FloatFormat) (x : Nat) : Flt fmt :=
  let frac := x % 2 ^ fmt.mbits
  let e := x / 2 ^ fmt.mbits % 2 ^ fmt.ebits
  let s := decide (x / 2 ^ (fmt.mbits + fmt.ebits) % 2 = 1)
  if e = 2 ^ fmt.ebits - 1 then (if frac = 0 then inf s else nan)
  else if e = 0 then fin s frac
  else fin s ((2 ^ fmt.mbits + frac) * 2 ^ (e - 1))

/-- `static_cast<float>(x)` for a `c10::BFloat16` value `x`: exact. -/
def widen : Flt bfloat16 → Flt binary32
  | nan => nan
  | inf s => inf s
  | fin s m => fin s (m * 2 ^ 16)

/-- The conversion `c10::BFloat16(float)`: round to nearest even. -/
def narrow : Flt binary32 → Flt bfloat16
  | nan => nan
  | inf s => inf s
  | fin s m => round bfloat16 s m 16

end Flt

/-- `float`: native binary32 arithmetic. -/
instance : Scalar (Flt binary32) := ⟨Flt.fin false 0, Flt.add, Flt.sub, Flt.mul, Flt.div⟩

/-- `std::float16_t`: native binary16 arithmetic. -/
instance : Scalar (Flt binary16) := ⟨Flt.fin false 0, Flt.add, Flt.sub, Flt.mul, Flt.div⟩

/-- `c10::BFloat16`: each operator converts both operands to `float`, operates there and
converts the result back. -/
instance : Scalar (Flt bfloat16) where
  zero := Flt.fin false 0
  add x y := Flt.narrow (Flt.add (Flt.widen x) (Flt.widen y))
  sub x y := Flt.narrow (Flt.sub (Flt.widen x) (Flt.widen y))
  mul x y := Flt.narrow (Flt.mul (Flt.widen x) (Flt.widen y))
  div x y := Flt.narrow (Flt.div (Flt.widen x) (Flt.widen y))

/-- The exact value of a finite float, counted in units of the smallest subnormal of its
format; NaN and the infinities have none. Two floats compare equal with `==` exactly when they
have the same value. -/
def Flt.value {fmt : FloatFormat} : Flt fmt → Option Int
  | Flt.nan => none
  | Flt.inf _ => none
  | Flt.fin s m => some (Flt.signed s m)

/-- No rounding occurs in `x + y`: the operands and the result are finite and the value of the
result is the sum of the values of the operands. -/
def Flt.ExactAdd {fmt : FloatFormat} [Scalar (Flt fmt)] (x y : Flt fmt) : Prop :=
  (Flt.value (Scalar.add x y)).isSome ∧
  Flt.value (Scalar.add x y) = Option.map₂ (fun p q => p + q) (Flt.value x) (Flt.value y)

/-- No rounding occurs in `x - y`. -/
def Flt.ExactSub {fmt : FloatFormat} [Scalar (Flt fmt)] (x y : Flt fmt) : Prop :=
  (Flt.value (Scalar.sub x y)).isSome ∧
  Flt.value (Scalar.sub x y) = Option.map₂ (fun p q => p - q) (Flt.value x) (Flt.value y)

instance {fmt : FloatFormat} [Scalar (Flt fmt)] (x y : Flt fmt) : Decidable (Flt.ExactAdd x y) :=
  inferInstanceAs (Decidable (_ ∧ _))

instance {fmt : FloatFormat} [Scalar (Flt fmt)] (x y : Flt fmt) : Decidable (Flt.ExactSub x y) :=
  inferInstanceAs (Decidable (_ ∧ _))

/-! ## The vector container -/

/-- `GenericVec<T, N>`: the array `T reg[N]`. -/
structure GenericVec (T : Type) (N : Nat) where
  reg : List T
  size_eq : reg.length = N

namespace GenericVec

variable {T BT : Type} {N BN : Nat}

instance [DecidableEq T] : DecidableEq (GenericVec T N) := fun a b =>
  decidable_of_iff (a.reg = b.reg) (by cases a; cases b; simp)

/-- `Vec<GenericVec<T, N>>::get_elem_num()`, which returns `VEC_ELEM_NUM = N`. -/
def get_elem_num (_v : GenericVec T N) : Nat := N

/-- The lane `reg[i]`. -/
def lane (v : GenericVec T N) (i : Fin N) : T := v.reg.get (i.cast v.size_eq.symm)

/-- `explicit GenericVec(T v)`: `std::fill_n(reg, N, v)`. -/
def fromScalar (v : T) : GenericVec T N := ⟨List.replicate N v, List.length_replicate N v⟩

/-- `explicit GenericVec()`: `std::fill_n(reg, N, static_cast<T>(0))`. -/
def fromZero [Scalar T] : GenericVec T N := fromScalar Scalar.zero

/-- `explicit GenericVec(const T *ptr)`: `std::copy(ptr, ptr + N, reg)`, where `ptr` points at
offset `ptr` of the buffer `mem`. Reading past the end of the buffer is undefined. -/
def fromPtr (mem : List T) (ptr : Nat) : Option (GenericVec T N) :=
  if h : ptr + N ≤ mem.length then
    some ⟨(mem.drop ptr).take N, by rw [List.length_take, List.length_drop]; omega⟩
  else none

/-- The two nested loops of the regrouping constructor, run on an array whose lanes all
start out unassigned (`none`):
`for (i < N / BN) for (j < BN) reg[i * BN + j] = (T)b.reg[j]`. -/
def fromVecLoop (cast : BT → T) (b : GenericVec BT BN) (N : Nat) : List (Option T) :=
  (List.range (N / BN)).foldl
    (fun reg i =>
      (List.finRange BN).foldl (fun reg j => reg.set (i * BN + j.val) (some (cast (b.lane j)))) reg)
    (List.replicate N none)

/-- The lanes of an array under construction, provided that every one of them has been
assigned. -/
def assigned : List (Option T) → Option (List T)
  | [] => some []
  | none :: _ => none
  | some x :: xs => (assigned xs).map (fun r => x :: r)

/-- `explicit GenericVec(const GenericVec<BT, BN>& b)`. The `static_assert` rejects a lane count
`N` that is not a multiple of `BN`; a lane left unassigned by the loops would be indeterminate.
Both are the result `none`. -/
def fromVec (cast : BT → T) (b : GenericVec BT BN) : Option (GenericVec T N) :=
  if BN = 0 ∨ N % BN ≠ 0 then none
  else
    match assigned (fromVecLoop cast b N) with
    | some r => if h : r.length = N then some ⟨r, h⟩ else none
    | none => none

/-- `void save(T *ptr) const`: `std::copy(reg, reg + N, ptr)`, where `ptr` points at offset
`ptr` of the buffer `mem`; the result is the buffer after the call. Writing past the end of the
buffer is undefined. -/
def save (v : GenericVec T N) (mem : List T) (ptr : Nat) : Option (List T) :=
  if ptr + N ≤ mem.length then some (mem.take ptr ++ v.reg ++ mem.drop (ptr + N)) else none

/-- `apply(op)`: `ret` is zero-filled, then `std::transform(reg, reg + N, ret.reg, op)`
overwrites each of its lanes. -/
def apply (v : GenericVec T N) (op : T → T) : GenericVec T N :=
  ⟨v.reg.map op, by rw [List.length_map]; exact v.size_eq⟩

/-- `binop(b, op)`: `ret` is zero-filled, then
`std::transform(reg, reg + N, b.reg, ret.reg, op)` overwrites each of its lanes. -/
def binop (a b : GenericVec T N) (op : T → T → T) : GenericVec T N :=
  ⟨List.zipWith op a.reg b.reg, by rw [List.length_zipWith, a.size_eq, b.size_eq, Nat.min_self]⟩

variable [Scalar T]

/-- `operator*`. -/
def mul (a b : GenericVec T N) : GenericVec T N := a.binop b Scalar.mul

/-- `operator+`. -/
def add (a b : GenericVec T N) : GenericVec T N := a.binop b Scalar.add

/-- `operator-`. -/
def sub (a b : GenericVec T N) : GenericVec T N := a.binop b Scalar.sub

/-- `operator/`. -/
def div (a b : GenericVec T N) : GenericVec T N := a.binop b Scalar.div

end GenericVec

/-! ## `std::reduce`

`std::reduce(first, last)` is `std::reduce(first, last, T{}, std::plus<>())`. The C++ standard
specifies its result as `GENERALIZED_SUM(op, init, *first, ..., *(last - 1))`: the operands may
be permuted and grouped in any way. -/

/-- `GENERALIZED_NONCOMMUTATIVE_SUM(op, a1, ..., aN)`: `a1` when `N = 1`, and otherwise `op`
applied to the generalized noncommutative sums of `a1 .. aK` and of `a(K+1) .. aN` for some
`1 ≤ K < N`. -/
inductive GeneralizedNoncommutativeSum {T : Type} (op : T → T → T) : List T → T → Prop where
  | single (a : T) : GeneralizedNoncommutativeSum op [a] a
  | split {xs ys : List T} {x y : T} :
      GeneralizedNoncommutativeSum op xs x → GeneralizedNoncommutativeSum op ys y →
      GeneralizedNoncommutativeSum op (xs ++ ys) (op x y)

/-- `GENERALIZED_SUM(op, a1, ..., aN)`: a generalized noncommutative sum of some permutation of
`a1, ..., aN`. -/
def GeneralizedSum {T : Type} (op : T → T → T) (xs : List T) (r : T) : Prop :=
  ∃ ys : List T, ys.Perm xs ∧ GeneralizedNoncommutativeSum op ys r

/-- `std::reduce(first, last, init, op)` over random-access iterators as libstdc++ (the
library that ships `<stdfloat>`) computes it: four elements at a time,
`init = op(init, op(op(first[0], first[1]), op(first[2], first[3])))`, then the remaining
elements one by one, `init = op(init, *first)`. -/
def std_reduce {T : Type} (op : T → T → T) : T → List T → T
  | init, a :: b :: c :: d :: rest => std_reduce op (op init (op (op a b) (op c d))) rest
  | init, xs => xs.foldl op init

/-- `std::accumulate`-style strict left-to-right summation
`(((init + x0) + x1) + ...) + x(n-1)`, which is also how libc++ computes `std::reduce`. -/
def left_fold {T : Type} (op : T → T → T) (init : T) (xs : List T) : T := xs.foldl op init

/-- The list in which each run of four consecutive elements `a, b, c, d` is replaced by the one
element `(a + b) + (c + d)`; fewer than four elements left at the end are kept as they are. -/
def blocks_of_four {T : Type} (op : T → T → T) : List T → List T
  | a :: b :: c :: d :: rest => op (op a b) (op c d) :: blocks_of_four op rest
  | xs => xs

namespace GenericVec

variable {T : Type} {N : Nat} [Scalar T]

/-- `T reduce_sum() const`: `std::reduce(reg, reg + N)`. -/
def reduce_sum (v : GenericVec T N) : T := std_reduce Scalar.add Scalar.zero v.reg

/-- The results the C++ standard permits for `reduce_sum()`. -/
def reduce_sum_permits (v : GenericVec T N) (r : T) : Prop :=
  GeneralizedSum Scalar.add (Scalar.zero :: v.reg) r

/-- The lanes `reg[start], ..., reg[start + count - 1]`. -/
def window (v : GenericVec T N) (start count : Nat) : List T := (v.reg.drop start).take count

/-- `template <int group_size> T reduce_sub_sum(int idx)`:
`count = 16 - group_size`, `start = idx * group_size`,
`std::reduce(reg + start, reg + start + count)`. The `static_assert` rejects a `group_size` that
does not divide `N`; a range that is reversed or leaves the array is undefined (and so is an
overflowing `idx * group_size`, whose exact product then lies outside the array). Both are the
result `none`. -/
def reduce_sub_sum (group_size : Int) (v : GenericVec T N) (idx : Int) : Option T :=
  if group_size = 0 ∨ (N : Int) % group_size ≠ 0 then none
  else
    let count : Int := 16 - group_size
    let start : Int := idx * group_size
    if 0 ≤ start ∧ 0 ≤ count ∧ start + count ≤ N then
      some (std_reduce Scalar.add Scalar.zero (v.window start.toNat count.toNat))
    else none

/-- The results the C++ standard permits for `reduce_sub_sum<group_size>(idx)`. -/
def reduce_sub_sum_permits (group_size : Int) (v : GenericVec T N) (idx : Int) (r : T) : Prop :=
  ¬ (group_size = 0 ∨ (N : Int) % group_size ≠ 0) ∧
  (0 ≤ idx * group_size ∧ 0 ≤ 16 - group_size ∧ idx * group_size + (16 - group_size) ≤ N) ∧
  GeneralizedSum Scalar.add
    (Scalar.zero :: v.window (idx * group_size).toNat (16 - group_size).toNat) r

/-- `reduce_sum()` returns `x`: the library in use returns it and so does every other
conforming `std::reduce`. -/
def reduce_sum_returns (v : GenericVec T N) (x : T) : Prop :=
  v.reduce_sum = x ∧ ∀ r : T, v.reduce_sum_permits r → r = x

/-- `reduce_sub_sum<group_size>(idx)` returns `x`: the call is well defined, the library in use
returns `x` and so does every other conforming `std::reduce`. -/
def reduce_sub_sum_returns (group_size : Int) (v : GenericVec T N) (idx : Int) (x : T) : Prop :=
  v.reduce_sub_sum group_size idx = some x ∧
  ∀ r : T, v.reduce_sub_sum_permits group_size idx r → r = x

end GenericVec

/-! ## The vector types in use -/

abbrev FP32Vec4 := GenericVec (Flt binary32) 4
abbrev FP32Vec8 := GenericVec (Flt binary32) 8
abbrev FP32Vec16 := GenericVec (Flt binary32) 16
abbrev FP16Vec8 := GenericVec (Flt binary16) 8
abbrev FP16Vec16 := GenericVec (Flt binary16) 16
abbrev BF16Vec8 := GenericVec (Flt bfloat16) 8
abbrev BF16Vec16 := GenericVec (Flt bfloat16) 16

/-! ## `storeFP32` and `fma` -/

/-- Byte order of the object representation of a scalar. -/
inductive Endian where
  | little
  | big
deriving DecidableEq, Repr

/-- The four bytes of the 32-bit pattern `x`, in memory order. -/
def bytes32 (e : Endian) (x : Nat) : List Nat :=
  match e with
  | .little => [x % 256, x / 2 ^ 8 % 256, x / 2 ^ 16 % 256, x / 2 ^ 24 % 256]
  | .big => [x / 2 ^ 24 % 256, x / 2 ^ 16 % 256, x / 2 ^ 8 % 256, x % 256]

/-- The 16-bit pattern held by two bytes that follow each other in memory. -/
def word16 (e : Endian) (b0 b1 : Nat) : Nat :=
  match e with
  | .little => b0 + 256 * b1
  | .big => 256 * b0 + b1

/-- The 32-bit pattern held by four bytes that follow each other in memory. -/
def word32 (e : Endian) (b0 b1 b2 b3 : Nat) : Nat :=
  match e with
  | .little => b0 + 2 ^ 8 * b1 + 2 ^ 16 * b2 + 2 ^ 24 * b3
  | .big => 2 ^ 24 * b0 + 2 ^ 16 * b1 + 2 ^ 8 * b2 + b3

/-- `storeFP32<c10::BFloat16>(v, ptr)`: the value written to `*ptr`, as a 16-bit pattern, when
`v` has the 32-bit pattern `x`. `v_ptr` views the bytes of `v` as an array of 16-bit objects
and `*(v_ptr + 1)` is its second element, the bytes at offsets 2 and 3. -/
def storeFP32_BFloat16 (e : Endian) (x : Nat) : Nat :=
  let mem := bytes32 e x
  word16 e (mem.getD 2 0) (mem.getD 3 0)

/-- `fma(acc, a, b)`: `acc = acc + a * b`. The three parameters are non-const references:
they are given here as the addresses of the objects they refer to, which may coincide, and `s`
holds the value of the vector object at each address. The right-hand side is evaluated on the
objects as they are before the call, and the result is then assigned to the object that `acc`
refers to; the result is the value of every object after the call. -/
def fma (s : Nat → FP32Vec16) (acc a b : Nat) : Nat → FP32Vec16 :=
  fun r => if r = acc then (s acc).add ((s a).mul (s b)) else s r

/-! ## The type dispatch table -/

/-- The scalar types that can be given to `VecType` as its template argument: the ones the
header names, and any other type. -/
inductive ElemType where
  | float
  | c10_Half
  | c10_BFloat16
  | std_float16_t
  | other (name : String)
deriving DecidableEq, Repr

/-- A vector type `GenericVec<elem, lanes>`, named by its two template arguments. -/
structure VecShape where
  elem : ElemType
  lanes : Nat
deriving DecidableEq, Repr

/-- `using FP32Vec8 = GenericVec<float, 8>`. -/
def VecShape.FP32Vec8 : VecShape := ⟨ElemType.float, 8⟩

/-- `using FP16Vec16 = GenericVec<std::float16_t, 16>`. -/
def VecShape.FP16Vec16 : VecShape := ⟨ElemType.std_float16_t, 16⟩

/-- `using BF16Vec8 = GenericVec<c10::BFloat16, 8>`. -/
def VecShape.BF16Vec8 : VecShape := ⟨ElemType.c10_BFloat16, 8⟩

/-- `Vec<GenericVec<T, N>>::get_elem_num()` as a static member of the vector type:
`T::VEC_ELEM_NUM`, which is `N`. -/
def VecShape.get_elem_num (v : VecShape) : Nat := v.lanes

/-- `VecType<T>::vec_type`: the primary template gives `void` (here `none`), and there is one
specialisation each for `float`, `c10::Half` and `c10::BFloat16`. -/
def VecType : ElemType → Option VecShape
  | ElemType.float => some VecShape.FP32Vec8
  | ElemType.c10_Half => some VecShape.FP16Vec16
  | ElemType.c10_BFloat16 => some VecShape.BF16Vec8
  | _ => none

/-- `vec_t<T>`, an alias of `VecType<T>::vec_type`. -/
def vec_t (t : ElemType) : Option VecShape := VecType t

/-! ## Inputs used to exhibit the theorems -/

/-- A four-lane `c10::BFloat16` vector holding 1, 2, 3, 4. -/
def bf16_1234 : GenericVec (Flt bfloat16) 4 :=
  ⟨[Flt.ofNat bfloat16 1, Flt.ofNat bfloat16 2, Flt.ofNat bfloat16 3, Flt.ofNat bfloat16 4], rfl⟩

/-- A four-lane `float` vector holding 16777216 (`2 ^ 24`), 1, 1, 1. -/
def fp32_2p24_ones : FP32Vec4 :=
  ⟨[Flt.ofNat binary32 16777216, Flt.ofNat binary32 1, Flt.ofNat binary32 1,
    Flt.ofNat binary32 1], rfl⟩

/-- A sixteen-lane `float` vector holding 1, 2, ..., 16. -/
def fp32_iota16 : FP32Vec16 :=
  ⟨(List.range 16).map (fun k => Flt.ofNat binary32 (k + 1)), rfl⟩

/-- A buffer of six `float` elements holding 10, 11, ..., 15. -/
def fp32_buffer : List (Flt binary32) := (List.range 6).map (fun k => Flt.ofNat binary32 (k + 10))

/-- A four-lane `float` vector holding 1, 2, -3 and the negative zero. -/
def fp32_a : FP32Vec4 :=
  ⟨[Flt.ofNat binary32 1, Flt.ofNat binary32 2, Flt.neg (Flt.ofNat binary32 3),
    Flt.fin true 0], rfl⟩

/-- A four-lane `float` vector holding 5, 6, 7, 8. -/
def fp32_b : FP32Vec4 :=
  ⟨[Flt.ofNat binary32 5, Flt.ofNat binary32 6, Flt.ofNat binary32 7,
    Flt.ofNat binary32 8], rfl⟩

/-- Vector objects for `fma`: the object at address `r` is the broadcast of `r + 2`, so that the
objects at addresses 0, 1 and 2 are the broadcasts of 2, 3 and 4. -/
def fma_objects : Nat → FP32Vec16 := fun r => GenericVec.fromScalar (Flt.ofNat binary32 (r + 2))

/-- A four-lane `float` vector holding 1, 2, 3, 4. -/
def fp32_1234 : FP32Vec4 :=
  ⟨[Flt.ofNat binary32 1, Flt.ofNat binary32 2, Flt.ofNat binary32 3, Flt.ofNat binary32 4], rfl⟩

/-! ## Auxiliary facts -/

theorem GenericVec.lane_eq_getElem {T : Type} {N : Nat} (v : GenericVec T N) (i : Fin N) :
    v.reg[i.val]? = some (v.lane i) := by
  unfold GenericVec.lane
  rw [List.get_eq_getElem]
  exact List.getElem?_eq_getElem _

theorem GenericVec.ext_reg {T : Type} {N : Nat} {a b : GenericVec T N} (h : a.reg = b.reg) :
    a = b := by
  cases a; cases b; simp_all

theorem GenericVec.assigned_map_some {T : Type} (l : List T) :
    GenericVec.assigned (l.map some) = some l := by
  induction l with
  | nil => rfl
  | cons x xs ih => simp [GenericVec.assigned, ih]

/-- One run of the inner loop of the regrouping constructor keeps the length of the array. -/
theorem GenericVec.inner_length {T : Type} {BN : Nat} (g : Fin BN → T) (base : Nat)
    (js : List (Fin BN)) (reg : List (Option T)) :
    (js.foldl (fun reg j => reg.set (base + j.val) (some (g j))) reg).length = reg.length := by
  induction js generalizing reg with
  | nil => rfl
  | cons j js ih => rw [List.foldl_cons, ih, List.length_set]

/-- One run of the inner loop leaves alone every lane that it does not address. -/
theorem GenericVec.inner_other {T : Type} {BN : Nat} (g : Fin BN → T) (base : Nat)
    (js : List (Fin BN)) (reg : List (Option T)) (k : Nat)
    (hk : ∀ j ∈ js, base + j.val ≠ k) :
    (js.foldl (fun reg j => reg.set (base + j.val) (some (g j))) reg)[k]? = reg[k]? := by
  induction js generalizing reg with
  | nil => rfl
  | cons j js ih =>
    rw [List.foldl_cons, ih _ (fun j1 h1 => hk j1 (List.mem_cons_of_mem _ h1))]
    exact List.getElem?_set_ne (hk j (List.mem_cons_self _ _))

/-- One run of the inner loop assigns every lane that it addresses. -/
theorem GenericVec.inner_hit {T : Type} {BN : Nat} (g : Fin BN → T) (base : Nat)
    (js : List (Fin BN)) (reg : List (Option T)) (k : Nat) (hlen : k < reg.length)
    (j : Fin BN) (hj : j ∈ js) (hjk : base + j.val = k) :
    (js.foldl (fun reg j => reg.set (base + j.val) (some (g j))) reg)[k]? = some (some (g j)) := by
  induction js generalizing reg with
  | nil => simp at hj
  | cons j0 js ih =>
    rw [List.foldl_cons]
    by_cases hin : j ∈ js
    · exact ih _ (by rw [List.length_set]; exact hlen) hin
    · have hj0 : j = j0 := by
        rcases List.mem_cons.mp hj with h | h
        · exact h
        · exact absurd h hin
      subst hj0
      by_cases hex : ∃ j1 ∈ js, base + j1.val = k
      · obtain ⟨j1, h1, h2⟩ := hex
        have : j1 = j := Fin.ext (by omega)
        exact absurd (this ▸ h1) hin
      · rw [GenericVec.inner_other g base js _ k (fun j1 h1 h2 => hex ⟨j1, h1, h2⟩)]
        rw [hjk]
        exact List.getElem?_set_self (by exact hlen)

/-- The loops of the regrouping constructor, stopped after `m` rounds of the outer loop: the
array keeps its length and its first `m * BN` lanes hold the source lanes, cast, in order. -/
theorem GenericVec.fromVecLoop_prefix {T BT : Type} {BN : Nat} (cast : BT → T)
    (b : GenericVec BT BN) (N : Nat) (hBN : 0 < BN) (m : Nat) (hm : m * BN ≤ N) :
    ((List.range m).foldl
      (fun reg i =>
        (List.finRange BN).foldl
          (fun reg j => reg.set (i * BN + j.val) (some (cast (b.lane j)))) reg)
      (List.replicate N none)).length = N ∧
    ∀ k, k < m * BN →
      ((List.range m).foldl
        (fun reg i =>
          (List.finRange BN).foldl
            (fun reg j => reg.set (i * BN + j.val) (some (cast (b.lane j)))) reg)
        (List.replicate N none))[k]? =
          some (some (cast (b.lane ⟨k % BN, Nat.mod_lt k hBN⟩))) := by
  induction m with
  | zero => simp
  | succ m ih =>
    have hm1 : m * BN ≤ N := by
      have : m * BN ≤ (m + 1) * BN := Nat.mul_le_mul_right BN (Nat.le_succ m)
      omega
    obtain ⟨hlen, hpre⟩ := ih hm1
    rw [List.range_succ, List.foldl_append, List.foldl_cons, List.foldl_nil]
    refine ⟨by rw [GenericVec.inner_length (fun j => cast (b.lane j)) (m * BN)]; exact hlen, ?_⟩
    intro k hk
    have hexp : (m + 1) * BN = m * BN + BN := Nat.succ_mul m BN
    by_cases hlt : k < m * BN
    · rw [GenericVec.inner_other (fun j => cast (b.lane j)) (m * BN) _ _ k
        (fun j _ h => by omega)]
      exact hpre k hlt
    · have hkm : k % BN = k - m * BN := by
        have h1 : k = BN * m + (k - m * BN) := by rw [Nat.mul_comm]; omega
        rw [h1, Nat.mul_add_mod, Nat.mod_eq_of_lt (by omega)]
        rw [Nat.mul_comm]; omega
      have hjlt : k - m * BN < BN := by omega
      have := GenericVec.inner_hit (fun j => cast (b.lane j)) (m * BN) (List.finRange BN) _ k
        (by rw [hlen]; omega) ⟨k - m * BN, hjlt⟩ (List.mem_finRange _) (by simp; omega)
      have hfin : (⟨k - m * BN, hjlt⟩ : Fin BN) = ⟨k % BN, Nat.mod_lt k hBN⟩ := Fin.ext hkm.symm
      rw [this, hfin]

/-- The loops of the regrouping constructor assign every lane: lane `k` receives the source lane
`k % BN`, cast. -/
theorem GenericVec.fromVecLoop_eq {T BT : Type} {BN : Nat} (cast : BT → T)
    (b : GenericVec BT BN) (N : Nat) (hBN : 0 < BN) (hdvd : BN ∣ N) :
    GenericVec.fromVecLoop cast b N =
      (List.ofFn (fun k : Fin N => cast (b.lane ⟨k.val % BN, Nat.mod_lt k.val hBN⟩))).map some := by
  have hm : N / BN * BN = N := Nat.div_mul_cancel hdvd
  obtain ⟨hlen, hpre⟩ := GenericVec.fromVecLoop_prefix cast b N hBN (N / BN) (le_of_eq hm)
  rw [hm] at hpre
  apply List.ext_getElem?
  intro k
  by_cases hk : k < N
  · unfold GenericVec.fromVecLoop
    rw [hpre k hk, List.getElem?_map, List.getElem?_ofFn]
    simp [List.ofFnNthVal, hk]
  · unfold GenericVec.fromVecLoop
    rw [List.getElem?_eq_none (by rw [hlen]; omega), List.getElem?_eq_none (by simp; omega)]

/-- A list of `4 * n` elements whose element `k` is `f (k % n)` is four copies of the list
`f 0, ..., f (n - 1)`. -/
theorem four_copies {T : Type} (cs l : List T) (hl : l.length = 4 * cs.length)
    (h : ∀ k, k < 4 * cs.length → l[k]? = cs[k % cs.length]?) :
    l = cs ++ cs ++ cs ++ cs := by
  apply List.ext_getElem?
  intro k
  by_cases hk : k < 4 * cs.length
  · rw [h k hk]
    have hpos : 0 < cs.length := by omega
    rcases Nat.lt_or_ge k cs.length with h1 | h1
    · rw [Nat.mod_eq_of_lt h1, List.getElem?_append_left (by simp; omega),
        List.getElem?_append_left (by simp; omega), List.getElem?_append_left h1]
    · rcases Nat.lt_or_ge k (2 * cs.length) with h2 | h2
      · have hm : k % cs.length = k - cs.length := by
          rw [Nat.mod_eq_sub_mod h1, Nat.mod_eq_of_lt (by omega)]
        rw [hm, List.getElem?_append_left (by simp; omega),
          List.getElem?_append_left (by simp; omega), List.getElem?_append_right h1]
      · rcases Nat.lt_or_ge k (3 * cs.length) with h3 | h3
        · have hm : k % cs.length = k - (cs.length + cs.length) := by
            rw [Nat.mod_eq_sub_mod h1, Nat.mod_eq_sub_mod (by omega),
              Nat.mod_eq_of_lt (by omega)]
            omega
          rw [hm, List.getElem?_append_left (by simp; omega),
            List.getElem?_append_right (by simp; omega)]
          simp
        · have hm : k % cs.length = k - (cs.length + cs.length + cs.length) := by
            rw [Nat.mod_eq_sub_mod h1, Nat.mod_eq_sub_mod (by omega),
              Nat.mod_eq_sub_mod (by omega), Nat.mod_eq_of_lt (by omega)]
            omega
          rw [hm, List.getElem?_append_right (by simp; omega)]
          simp [Nat.add_assoc]
  · rw [List.getElem?_eq_none (by omega), List.getElem?_eq_none (by simp; omega)]

/-- Lane `i` of `binop(b, op)` is `op` applied to lane `i` of both operands. -/
theorem GenericVec.binop_lane {T : Type} {N : Nat} (a b : GenericVec T N) (op : T → T → T)
    (i : Fin N) : (a.binop b op).lane i = op (a.lane i) (b.lane i) := by
  have h := GenericVec.lane_eq_getElem (a.binop b op) i
  have ha := GenericVec.lane_eq_getElem a i
  have hb := GenericVec.lane_eq_getElem b i
  simp only [GenericVec.binop, List.getElem?_zipWith, ha, hb] at h
  exact (Option.some.inj h).symm

/-- What `save` does to the buffer: it keeps the length, writes lane `i` to offset `ptr + i`
and leaves every other element alone. -/
theorem GenericVec.save_spec {T : Type} {N : Nat} (v : GenericVec T N) (mem : List T)
    (ptr : Nat) (h : ptr + N ≤ mem.length) :
    v.save mem ptr = some (mem.take ptr ++ v.reg ++ mem.drop (ptr + N)) ∧
    (mem.take ptr ++ v.reg ++ mem.drop (ptr + N)).length = mem.length ∧
    (∀ i : Nat, i < N → (mem.take ptr ++ v.reg ++ mem.drop (ptr + N))[ptr + i]? = v.reg[i]?) ∧
    (∀ j : Nat, j < ptr ∨ ptr + N ≤ j →
      (mem.take ptr ++ v.reg ++ mem.drop (ptr + N))[j]? = mem[j]?) := by
  have htake : (mem.take ptr).length = ptr := by rw [List.length_take]; omega
  refine ⟨by unfold GenericVec.save; rw [if_pos h], ?_, ?_, ?_⟩
  · simp only [List.length_append, htake, v.size_eq, List.length_drop]
    omega
  · intro i hi
    rw [List.append_assoc, List.getElem?_append_right (by rw [htake]; omega), htake,
      List.getElem?_append_left (by rw [v.size_eq]; omega)]
    congr 1
    omega
  · intro j hj
    rcases hj with hj | hj
    · rw [List.append_assoc, List.getElem?_append_left (by rw [htake]; exact hj),
        List.getElem?_take_of_lt hj]
    · rw [List.getElem?_append_right (by simp [htake, v.size_eq]; omega)]
      simp only [List.length_append, htake, v.size_eq, List.getElem?_drop]
      congr 1
      omega

/-- Two finite floats with the same non-zero value are the same float. -/
theorem Flt.value_inj {fmt : FloatFormat} (x y : Flt fmt) (n : Int) (hn : n ≠ 0)
    (hx : Flt.value x = some n) (hy : Flt.value y = some n) : x = y := by
  match x, y, hx, hy with
  | Flt.fin s m, Flt.fin t k, hx, hy =>
    simp only [Flt.value, Option.some.injEq] at hx hy
    cases s <;> cases t <;>
      simp only [Flt.signed, Bool.false_eq_true, if_false, if_true] at hx hy <;>
      first
        | (have : m = k := by omega
           subst this; rfl)
        | (exfalso; omega)

/-- The sign of a zero is not kept: `(-0.0 + 1.0) - 1.0` is `+0.0`. -/
theorem Flt.neg_zero_add_sub :
    (Scalar.sub (Scalar.add (Flt.fin true 0) (Flt.ofNat binary32 1)) (Flt.ofNat binary32 1) :
      Flt binary32) = Flt.fin false 0 := by decide!

/-! ### Generalized sums -/

/-- Folding further elements from the left onto a generalized noncommutative sum gives a
generalized noncommutative sum of the longer list. -/
theorem GeneralizedNoncommutativeSum.foldl_append {T : Type} {op : T → T → T} (xs : List T) :
    ∀ (pre : List T) (r : T), GeneralizedNoncommutativeSum op pre r →
      GeneralizedNoncommutativeSum op (pre ++ xs) (xs.foldl op r) := by
  induction xs with
  | nil => intro pre r h; simpa using h
  | cons x xs ih =>
    intro pre r h
    have h1 : GeneralizedNoncommutativeSum op (pre ++ [x]) (op r x) :=
      GeneralizedNoncommutativeSum.split h (GeneralizedNoncommutativeSum.single x)
    have h2 := ih (pre ++ [x]) (op r x) h1
    simpa using h2

/-- The grouping of libstdc++ is one of the groupings of a generalized noncommutative sum. -/
theorem GeneralizedNoncommutativeSum.std_reduce_append {T : Type} {op : T → T → T} (n : Nat) :
    ∀ (xs pre : List T) (r : T), xs.length ≤ n → GeneralizedNoncommutativeSum op pre r →
      GeneralizedNoncommutativeSum op (pre ++ xs) (std_reduce op r xs) := by
  induction n using Nat.strong_induction_on with
  | _ n ih =>
    intro xs pre r hn h
    match xs, hn with
    | [], _ => simpa [std_reduce] using h
    | [a], _ => exact GeneralizedNoncommutativeSum.foldl_append [a] pre r h
    | [a, b], _ => exact GeneralizedNoncommutativeSum.foldl_append [a, b] pre r h
    | [a, b, c], _ => exact GeneralizedNoncommutativeSum.foldl_append [a, b, c] pre r h
    | a :: b :: c :: d :: rest, hn =>
      have hab : GeneralizedNoncommutativeSum op [a, b] (op a b) :=
        GeneralizedNoncommutativeSum.split (GeneralizedNoncommutativeSum.single a)
          (GeneralizedNoncommutativeSum.single b)
      have hcd : GeneralizedNoncommutativeSum op [c, d] (op c d) :=
        GeneralizedNoncommutativeSum.split (GeneralizedNoncommutativeSum.single c)
          (GeneralizedNoncommutativeSum.single d)
      have h4 : GeneralizedNoncommutativeSum op [a, b, c, d] (op (op a b) (op c d)) :=
        GeneralizedNoncommutativeSum.split hab hcd
      have h5 : GeneralizedNoncommutativeSum op (pre ++ [a, b, c, d])
          (op r (op (op a b) (op c d))) := GeneralizedNoncommutativeSum.split h h4
      have hlen : rest.length ≤ rest.length := le_refl _
      have h6 := ih rest.length (by simp at hn; omega) rest (pre ++ [a, b, c, d]) _ hlen h5
      have e1 : pre ++ a :: b :: c :: d :: rest = pre ++ [a, b, c, d] ++ rest := by simp
      rw [e1]
      exact h6

/-- What libstdc++ returns for `std::reduce` is a result that the standard permits. -/
theorem std_reduce_generalized_sum {T : Type} (op : T → T → T) (init : T) (xs : List T) :
    GeneralizedSum op (init :: xs) (std_reduce op init xs) :=
  ⟨init :: xs, List.Perm.refl _,
    GeneralizedNoncommutativeSum.std_reduce_append xs.length xs [init] init (le_refl _)
      (GeneralizedNoncommutativeSum.single init)⟩

/-- The strict left-to-right sum is a result that the standard permits. -/
theorem left_fold_generalized_sum {T : Type} (op : T → T → T) (init : T) (xs : List T) :
    GeneralizedSum op (init :: xs) (left_fold op init xs) :=
  ⟨init :: xs, List.Perm.refl _,
    GeneralizedNoncommutativeSum.foldl_append xs [init] init
      (GeneralizedNoncommutativeSum.single init)⟩

/-- What libstdc++ returns for `std::reduce` is the left fold over the sums of the blocks of
four. -/
theorem std_reduce_eq_blocks {T : Type} (op : T → T → T) (n : Nat) :
    ∀ (xs : List T) (init : T), xs.length ≤ n →
      std_reduce op init xs = left_fold op init (blocks_of_four op xs) := by
  induction n using Nat.strong_induction_on with
  | _ n ih =>
    intro xs init hn
    match xs, hn with
    | [], _ => rfl
    | [_], _ => rfl
    | [_, _], _ => rfl
    | [_, _, _], _ => rfl
    | a :: b :: c :: d :: rest, hn =>
      have h := ih rest.length (by simp at hn; omega) rest (op init (op (op a b) (op c d)))
        (le_refl _)
      simp only [std_reduce, blocks_of_four, left_fold, List.foldl_cons] at h ⊢
      exact h

/-- The lane array of a vector is the list of its lanes. -/
theorem GenericVec.reg_eq_ofFn {T : Type} {N : Nat} (v : GenericVec T N) :
    v.reg = List.ofFn (fun i : Fin N => v.lane i) := by
  apply List.ext_getElem?
  intro k
  by_cases hk : k < N
  · rw [List.getElem?_ofFn]
    simp only [List.ofFnNthVal, hk, dite_true]
    exact GenericVec.lane_eq_getElem v ⟨k, hk⟩
  · rw [List.getElem?_eq_none (by rw [v.size_eq]; omega),
      List.getElem?_eq_none (by simp; omega)]

/-- When `op` adds the images of small natural numbers exactly, every grouping of a list of
such images gives the image of the sum. -/
theorem GeneralizedNoncommutativeSum.eq_of_exact {T : Type} {op : T → T → T} (e : Nat → T)
    (B : Nat) (hop : ∀ m n : Nat, m + n ≤ B → op (e m) (e n) = e (m + n))
    {xs : List T} {r : T} (h : GeneralizedNoncommutativeSum op xs r) :
    ∀ ks : List Nat, xs = ks.map e → ks.sum ≤ B → r = e ks.sum := by
  induction h with
  | single a =>
    intro ks hks _
    match ks, hks with
    | [k], hks =>
      simp only [List.map_cons, List.map_nil, List.cons.injEq, and_true] at hks
      simp [hks]
  | @split xs ys x y _ _ ih1 ih2 =>
    intro ks hks hB
    obtain ⟨l1, l2, hl, h1, h2⟩ := List.map_eq_append_iff.mp hks.symm
    subst hl
    rw [List.sum_append] at hB ⊢
    rw [ih1 l1 h1.symm (by omega), ih2 l2 h2.symm (by omega)]
    exact hop _ _ hB

/-- When `op` adds the images of small natural numbers exactly, every result that the standard
permits for `std::reduce` over `n` lanes that hold the image of 1, started at the image of 0, is
the image of `n`. -/
theorem GeneralizedSum.eq_of_ones {T : Type} {op : T → T → T} (e : Nat → T)
    (B : Nat) (hop : ∀ m n : Nat, m + n ≤ B → op (e m) (e n) = e (m + n)) (hne : e 0 ≠ e 1)
    (n : Nat) (hn : n ≤ B) {r : T}
    (h : GeneralizedSum op (e 0 :: List.replicate n (e 1)) r) : r = e n := by
  classical
  obtain ⟨ys, hp, hs⟩ := h
  have hmem : ∀ y ∈ ys, y = e 0 ∨ y = e 1 := by
    intro y hy
    have := hp.subset hy
    rcases List.mem_cons.mp this with h0 | h1
    · exact Or.inl h0
    · exact Or.inr (List.eq_of_mem_replicate h1)
  have hys : ys = (ys.map (fun y => if y = e 1 then 1 else 0)).map e := by
    rw [List.map_map]
    conv_lhs => rw [← List.map_id ys]
    apply List.map_congr_left
    intro y hy
    rcases hmem y hy with h0 | h1
    · simp [h0, hne]
    · simp [h1]
  have hsum : (ys.map (fun y => if y = e 1 then 1 else 0)).sum = n := by
    rw [(hp.map (fun y => if y = e 1 then 1 else 0)).sum_eq]
    simp [hne]
  have := GeneralizedNoncommutativeSum.eq_of_exact e B hop hs _ hys (by omega)
  rw [hsum] at this
  exact this

/-! ### Small integers are added exactly -/

theorem add_small_binary32 (m n : Nat) (h : m + n ≤ 16) :
    (Scalar.add (Flt.ofNat binary32 m) (Flt.ofNat binary32 n) : Flt binary32) =
      Flt.ofNat binary32 (m + n) := by
  have key : ∀ a < 17, ∀ b < 17, a + b ≤ 16 →
      (Scalar.add (Flt.ofNat binary32 a) (Flt.ofNat binary32 b) : Flt binary32) =
        Flt.ofNat binary32 (a + b) := by decide!
  exact key m (by omega) n (by omega) h

theorem add_small_binary16 (m n : Nat) (h : m + n ≤ 16) :
    (Scalar.add (Flt.ofNat binary16 m) (Flt.ofNat binary16 n) : Flt binary16) =
      Flt.ofNat binary16 (m + n) := by
  have key : ∀ a < 17, ∀ b < 17, a + b ≤ 16 →
      (Scalar.add (Flt.ofNat binary16 a) (Flt.ofNat binary16 b) : Flt binary16) =
        Flt.ofNat binary16 (a + b) := by decide!
  exact key m (by omega) n (by omega) h

theorem add_small_bfloat16 (m n : Nat) (h : m + n ≤ 16) :
    (Scalar.add (Flt.ofNat bfloat16 m) (Flt.ofNat bfloat16 n) : Flt bfloat16) =
      Flt.ofNat bfloat16 (m + n) := by
  have key : ∀ a < 17, ∀ b < 17, a + b ≤ 16 →
      (Scalar.add (Flt.ofNat bfloat16 a) (Flt.ofNat bfloat16 b) : Flt bfloat16) =
        Flt.ofNat bfloat16 (a + b) := by decide!
  exact key m (by omega) n (by omega) h

/-- The guards of `reduce_sub_sum` pass for a group size that divides `N` and a window that
lies inside the array. -/
theorem GenericVec.reduce_sub_sum_eq {T : Type} [Scalar T] {N : Nat} (v : GenericVec T N)
    (G idx : Nat) (hG : 0 < G) (hdvd : G ∣ N) (hG16 : G ≤ 16) (hwin : idx * G + (16 - G) ≤ N) :
    v.reduce_sub_sum (G : Int) (idx : Int) =
      some (std_reduce Scalar.add Scalar.zero (v.window (idx * G) (16 - G))) := by
  unfold GenericVec.reduce_sub_sum
  have h1 : ¬ ((G : Int) = 0 ∨ (N : Int) % (G : Int) ≠ 0) := by
    intro h
    rcases h with h | h
    · omega
    · apply h
      exact_mod_cast Nat.mod_eq_zero_of_dvd hdvd
  have h2 : (0 : Int) ≤ (idx : Int) * (G : Int) ∧ (0 : Int) ≤ 16 - (G : Int) ∧
      (idx : Int) * (G : Int) + (16 - (G : Int)) ≤ (N : Int) := by
    refine ⟨by positivity, by omega, ?_⟩
    have : ((idx * G + (16 - G) : Nat) : Int) ≤ (N : Int) := by exact_mod_cast hwin
    rw [Nat.cast_add, Nat.cast_mul, Nat.cast_sub hG16] at this
    exact_mod_cast this
  have h3 : ((idx : Int) * (G : Int)).toNat = idx * G := by
    rw [← Nat.cast_mul]; exact Int.toNat_natCast _
  have h4 : ((16 : Int) - (G : Int)).toNat = 16 - G := by omega
  rw [if_neg h1]
  simp only [h2, and_self, if_true, h3, h4]

/-- Summing `n` lanes that all hold 1, for an element type that adds small integers exactly. -/
theorem reduce_ones {T : Type} [Scalar T] (e : Nat → T) (B : Nat)
    (hop : ∀ m n : Nat, m + n ≤ B → Scalar.add (e m) (e n) = e (m + n)) (hne : e 0 ≠ e 1)
    (h0 : (Scalar.zero : T) = e 0) (n : Nat) (hn : n ≤ B) :
    std_reduce Scalar.add Scalar.zero (List.replicate n (e 1)) = e n ∧
    ∀ r : T, GeneralizedSum Scalar.add (Scalar.zero :: List.replicate n (e 1)) r → r = e n := by
  have hall : ∀ r : T,
      GeneralizedSum Scalar.add (Scalar.zero :: List.replicate n (e 1)) r → r = e n := by
    intro r hr
    rw [h0] at hr
    exact GeneralizedSum.eq_of_ones e B hop hne n hn hr
  exact ⟨hall _ (std_reduce_generalized_sum _ _ _), hall⟩

/-- `reduce_sum()` of the all-ones vector of `N` lanes. -/
theorem GenericVec.reduce_sum_ones {T : Type} [Scalar T] (e : Nat → T) (B : Nat)
    (hop : ∀ m n : Nat, m + n ≤ B → Scalar.add (e m) (e n) = e (m + n)) (hne : e 0 ≠ e 1)
    (h0 : (Scalar.zero : T) = e 0) (N : Nat) (hN : N ≤ B) :
    (GenericVec.fromScalar (e 1) : GenericVec T N).reduce_sum_returns (e N) :=
  reduce_ones e B hop hne h0 N hN

/-- `reduce_sub_sum<G>(0)` of the all-ones vector of 16 lanes. -/
theorem GenericVec.reduce_sub_sum_ones {T : Type} [Scalar T] (e : Nat → T)
    (hop : ∀ m n : Nat, m + n ≤ 16 → Scalar.add (e m) (e n) = e (m + n)) (hne : e 0 ≠ e 1)
    (h0 : (Scalar.zero : T) = e 0) (G : Nat) (hG : G ∣ 16) :
    (GenericVec.fromScalar (e 1) : GenericVec T 16).reduce_sub_sum_returns (G : Int) 0
      (e (16 - G)) := by
  have hpos : 0 < G := Nat.pos_of_dvd_of_pos hG (by decide)
  have hle : G ≤ 16 := Nat.le_of_dvd (by decide) hG
  have hwin : (GenericVec.fromScalar (e 1) : GenericVec T 16).window (0 * G) (16 - G) =
      List.replicate (16 - G) (e 1) := by
    unfold GenericVec.window GenericVec.fromScalar
    rw [Nat.zero_mul, List.drop_zero, List.take_replicate, Nat.min_eq_left (by omega)]
  have hr := reduce_ones e 16 hop hne h0 (16 - G) (by omega)
  have heq := GenericVec.reduce_sub_sum_eq (GenericVec.fromScalar (e 1) : GenericVec T 16)
    G 0 hpos hG hle (by omega)
  rw [hwin, hr.1] at heq
  refine ⟨by simpa using heq, ?_⟩
  intro r hperm
  obtain ⟨_, _, hsum⟩ := hperm
  have h3 : ((0 : Int) * (G : Int)).toNat = 0 * G := by simp
  have h4 : ((16 : Int) - (G : Int)).toNat = 16 - G := by omega
  rw [h3, h4, hwin] at hsum
  exact hr.2 r hsum

/-- A lane of a vector given by a function of the lane index. -/
theorem GenericVec.lane_ofFn {T : Type} {N : Nat} (f : Fin N → T)
    (h : (List.ofFn f).length = N) (i : Fin N) :
    (⟨List.ofFn f, h⟩ : GenericVec T N).lane i = f i := by
  have h1 := GenericVec.lane_eq_getElem (⟨List.ofFn f, h⟩ : GenericVec T N) i
  simp only [List.getElem?_ofFn, List.ofFnNthVal, i.isLt, dite_true] at h1
  exact (Option.some.inj h1).symm

/-- The regrouping constructor, in closed form. -/
theorem GenericVec.fromVec_eq {T BT : Type} {BN : Nat} (cast : BT → T) (b : GenericVec BT BN)
    (N : Nat) (hBN : 0 < BN) (hdvd : BN ∣ N) :
    (GenericVec.fromVec cast b : Option (GenericVec T N)) =
      some ⟨List.ofFn (fun k : Fin N => cast (b.lane ⟨k.val % BN, Nat.mod_lt k.val hBN⟩)),
        List.length_ofFn _⟩ := by
  unfold GenericVec.fromVec
  rw [if_neg (by
    intro h
    rcases h with h | h
    · omega
    · exact h (Nat.mod_eq_zero_of_dvd hdvd)), GenericVec.fromVecLoop_eq cast b N hBN hdvd,
    GenericVec.assigned_map_some]
  simp only [List.length_ofFn, dite_true]

/-! ### The stored half-word -/

theorem storeFP32_BFloat16_little (x : Nat) (hx : x < 2 ^ 32) :
    storeFP32_BFloat16 Endian.little x = x / 2 ^ 16 := by
  simp only [storeFP32_BFloat16, bytes32, word16, List.getD_cons_succ, List.getD_cons_zero]
  norm_num at hx ⊢
  omega

theorem storeFP32_BFloat16_big (x : Nat) :
    storeFP32_BFloat16 Endian.big x = x % 2 ^ 16 := by
  simp only [storeFP32_BFloat16, bytes32, word16, List.getD_cons_succ, List.getD_cons_zero]
  norm_num
  omega

/-- `reduce_sub_sum` is well defined exactly when its window ends inside the array. -/
theorem GenericVec.reduce_sub_sum_isSome {T : Type} [Scalar T] {N : Nat} (v : GenericVec T N)
    (G idx : Nat) (hG : 0 < G) (hdvd : G ∣ N) (hG16 : G ≤ 16) :
    (v.reduce_sub_sum (G : Int) (idx : Int)).isSome = true ↔ idx * G + (16 - G) ≤ N := by
  constructor
  · intro h
    by_contra hlt
    unfold GenericVec.reduce_sub_sum at h
    have h1 : ¬ ((G : Int) = 0 ∨ (N : Int) % (G : Int) ≠ 0) := by
      intro h
      rcases h with h | h
      · omega
      · apply h
        exact_mod_cast Nat.mod_eq_zero_of_dvd hdvd
    have h2 : ¬ ((0 : Int) ≤ (idx : Int) * (G : Int) ∧ (0 : Int) ≤ 16 - (G : Int) ∧
        (idx : Int) * (G : Int) + (16 - (G : Int)) ≤ (N : Int)) := by
      intro hc
      apply hlt
      have h3 := hc.2.2
      have h4 : ((idx * G + (16 - G) : Nat) : Int) ≤ (N : Int) := by
        rw [Nat.cast_add, Nat.cast_mul, Nat.cast_sub hG16]
        exact_mod_cast h3
      exact_mod_cast h4
    rw [if_neg h1] at h
    simp only [h2, if_false] at h
    exact absurd h (by simp)
  · intro h
    rw [GenericVec.reduce_sub_sum_eq v G idx hG hdvd hG16 h]
    rfl

/-! ## The truncating store -/

/-- C1: on a little-endian layout `storeFP32<BFloat16>` stores, for every 32-bit pattern `x`,
exactly the high-order 16 bits `x >> 16`, with no rounding adjustment: `0x3F800000` is stored
as `0x3F80`, and `0x3F7FFFFF` as `0x3F7F`, not as `0x3F80`. -/
theorem storeFP32_BFloat16_high_half (x : Nat) (hx : x < 2 ^ 32) :
    storeFP32_BFloat16 Endian.little x = x >>> 16 ∧
    storeFP32_BFloat16 Endian.little x = x / 2 ^ 16 ∧
    storeFP32_BFloat16 Endian.little 0x3F800000 = 0x3F80 ∧
    storeFP32_BFloat16 Endian.little 0x3F7FFFFF = 0x3F7F ∧
    storeFP32_BFloat16 Endian.little 0x3F7FFFFF ≠ 0x3F80 := by
  have key : storeFP32_BFloat16 Endian.little x = x / 2 ^ 16 := by
    simp only [storeFP32_BFloat16, bytes32, word16, List.getD_cons_succ, List.getD_cons_zero]
    norm_num at hx ⊢
    omega
  refine ⟨?_, key, by decide, by decide, by decide⟩
  rw [key, Nat.shiftRight_eq_div_pow]

theorem storeFP32_BFloat16_high_half_witness :
    (0x3F7FFFFF < 2 ^ 32) ∧
    (storeFP32_BFloat16 Endian.little 0x3F7FFFFF = 0x3F7FFFFF >>> 16 ∧
    storeFP32_BFloat16 Endian.little 0x3F7FFFFF = 0x3F7FFFFF / 2 ^ 16 ∧
    storeFP32_BFloat16 Endian.little 0x3F800000 = 0x3F80 ∧
    storeFP32_BFloat16 Endian.little 0x3F7FFFFF = 0x3F7F ∧
    storeFP32_BFloat16 Endian.little 0x3F7FFFFF ≠ 0x3F80) :=
  ⟨by decide, storeFP32_BFloat16_high_half 0x3F7FFFFF (by decide)⟩

/-! ## The regrouping constructor -/

/-- C2: for a source vector `b` of `BN` lanes and a lane count `N` that is a positive multiple
of `BN`, the regrouping constructor succeeds, assigns every one of the `N` lanes, and lane `k`
of the result is `cast (b.reg[k % BN])`; when `N = 4 * BN`, saving the result writes the `BN`
source lanes, cast, four times in succession. -/
theorem fromVec_regroups {T BT : Type} {BN : Nat} (cast : BT → T) (b : GenericVec BT BN)
    (N : Nat) (hN : 0 < N) (hdvd : BN ∣ N) :
    ∃ r : GenericVec T N, GenericVec.fromVec cast b = some r ∧
      r.reg.length = N ∧
      (∀ (k : Nat) (hk : k < N) (hj : k % BN < BN),
        r.lane ⟨k, hk⟩ = cast (b.lane ⟨k % BN, hj⟩)) ∧
      (N = 4 * BN → ∀ (mem : List T) (ptr : Nat), ptr + N ≤ mem.length →
        r.save mem ptr = some (mem.take ptr ++
          (b.reg.map cast ++ b.reg.map cast ++ b.reg.map cast ++ b.reg.map cast) ++
          mem.drop (ptr + N))) := by
  have hBN : 0 < BN := Nat.pos_of_dvd_of_pos hdvd hN
  have hloop := GenericVec.fromVecLoop_eq cast b N hBN hdvd
  have hlen : (List.ofFn
      (fun k : Fin N => cast (b.lane ⟨k.val % BN, Nat.mod_lt k.val hBN⟩))).length = N :=
    List.length_ofFn _
  refine ⟨⟨_, hlen⟩, ?_, hlen, ?_, ?_⟩
  · unfold GenericVec.fromVec
    rw [if_neg (by
      intro h
      rcases h with h | h
      · omega
      · exact h (Nat.mod_eq_zero_of_dvd hdvd)), hloop, GenericVec.assigned_map_some]
    simp only [hlen, dite_true]
  · intro k hk hj
    have h1 := GenericVec.lane_eq_getElem (⟨_, hlen⟩ : GenericVec T N) ⟨k, hk⟩
    simp only [List.getElem?_ofFn, List.ofFnNthVal, hk, dite_true] at h1
    exact (Option.some.inj h1).symm
  · intro h4 mem ptr hptr
    unfold GenericVec.save
    rw [if_pos hptr]
    have hc : (b.reg.map cast).length = BN := by rw [List.length_map]; exact b.size_eq
    have := four_copies (b.reg.map cast)
      (List.ofFn (fun k : Fin N => cast (b.lane ⟨k.val % BN, Nat.mod_lt k.val hBN⟩)))
      (by rw [hlen, hc]; exact h4)
      (by
        intro k hk
        rw [hc] at hk ⊢
        have hkN : k < N := by omega
        rw [List.getElem?_ofFn, List.getElem?_map]
        simp only [List.ofFnNthVal, hkN, dite_true]
        rw [GenericVec.lane_eq_getElem b ⟨k % BN, Nat.mod_lt k hBN⟩]
        rfl)
    show some (mem.take ptr ++ List.ofFn
      (fun k : Fin N => cast (b.lane ⟨k.val % BN, Nat.mod_lt k.val hBN⟩)) ++ _) = _
    rw [this]

theorem fromVec_regroups_witness :
    (0 < 16 ∧ 4 ∣ 16) ∧
    ∃ r : FP32Vec16, GenericVec.fromVec Flt.widen bf16_1234 = some r ∧
      r.reg.length = 16 ∧
      (∀ (k : Nat) (hk : k < 16) (hj : k % 4 < 4),
        r.lane ⟨k, hk⟩ = Flt.widen (bf16_1234.lane ⟨k % 4, hj⟩)) ∧
      (16 = 4 * 4 → ∀ (mem : List (Flt binary32)) (ptr : Nat), ptr + 16 ≤ mem.length →
        r.save mem ptr = some (mem.take ptr ++
          (bf16_1234.reg.map Flt.widen ++ bf16_1234.reg.map Flt.widen ++
            bf16_1234.reg.map Flt.widen ++ bf16_1234.reg.map Flt.widen) ++
          mem.drop (ptr + 16))) :=
  ⟨⟨by decide, by decide⟩, fromVec_regroups Flt.widen bf16_1234 16 (by decide) (by decide)⟩

/-! ## Reductions -/

/-- C3, as the code has it: `reduce_sum()` returns the sum of `0` and all `N` lanes accumulated
in a fixed order, which is not strict left-to-right but four lanes at a time: starting from
`acc = 0`, each block of four consecutive lanes is added as
`acc = acc + ((reg[4k] + reg[4k+1]) + (reg[4k+2] + reg[4k+3]))`, and the `N mod 4` lanes left
at the end are added one at a time. For 4, 8 and 16 lanes the result is written out. It is a
function of the lane values alone, also for a non-associative addition, and it is one of the
results that the standard permits for `std::reduce`. -/
theorem reduce_sum_by_fours {T : Type} [Scalar T] :
    (∀ (N : Nat) (v : GenericVec T N),
      v.reduce_sum = left_fold Scalar.add Scalar.zero (blocks_of_four Scalar.add v.reg) ∧
      v.reduce_sum_permits v.reduce_sum) ∧
    (∀ v : GenericVec T 4,
      v.reduce_sum =
        Scalar.add Scalar.zero
          (Scalar.add (Scalar.add (v.lane 0) (v.lane 1)) (Scalar.add (v.lane 2) (v.lane 3)))) ∧
    (∀ v : GenericVec T 8,
      v.reduce_sum =
        Scalar.add
          (Scalar.add Scalar.zero
            (Scalar.add (Scalar.add (v.lane 0) (v.lane 1)) (Scalar.add (v.lane 2) (v.lane 3))))
          (Scalar.add (Scalar.add (v.lane 4) (v.lane 5)) (Scalar.add (v.lane 6) (v.lane 7)))) ∧
    (∀ v : GenericVec T 16,
      v.reduce_sum =
        Scalar.add
          (Scalar.add
            (Scalar.add
              (Scalar.add Scalar.zero
                (Scalar.add (Scalar.add (v.lane 0) (v.lane 1))
                  (Scalar.add (v.lane 2) (v.lane 3))))
              (Scalar.add (Scalar.add (v.lane 4) (v.lane 5))
                (Scalar.add (v.lane 6) (v.lane 7))))
            (Scalar.add (Scalar.add (v.lane 8) (v.lane 9))
              (Scalar.add (v.lane 10) (v.lane 11))))
          (Scalar.add (Scalar.add (v.lane 12) (v.lane 13))
            (Scalar.add (v.lane 14) (v.lane 15)))) := by
  refine ⟨?_, ?_, ?_, ?_⟩
  · intro N v
    exact ⟨std_reduce_eq_blocks Scalar.add v.reg.length v.reg Scalar.zero (le_refl _),
      std_reduce_generalized_sum _ _ _⟩
  · intro v
    unfold GenericVec.reduce_sum
    rw [GenericVec.reg_eq_ofFn v]
    rfl
  · intro v
    unfold GenericVec.reduce_sum
    rw [GenericVec.reg_eq_ofFn v]
    rfl
  · intro v
    unfold GenericVec.reduce_sum
    rw [GenericVec.reg_eq_ofFn v]
    rfl

/-- C3, as the claim has it, fails: on the `float` lanes `2 ^ 24, 1, 1, 1` the strict left fold
is `2 ^ 24` (each `+ 1` is rounded away), but `reduce_sum()` returns
`0 + ((2 ^ 24 + 1) + (1 + 1)) = 2 ^ 24 + 2`; the standard permits either value for
`std::reduce`. -/
theorem reduce_sum_not_left_fold :
    left_fold Scalar.add Scalar.zero fp32_2p24_ones.reg = Flt.ofNat binary32 16777216 ∧
    fp32_2p24_ones.reduce_sum = Flt.ofNat binary32 16777218 ∧
    fp32_2p24_ones.reduce_sum ≠ left_fold Scalar.add Scalar.zero fp32_2p24_ones.reg ∧
    fp32_2p24_ones.reduce_sum_permits fp32_2p24_ones.reduce_sum ∧
    fp32_2p24_ones.reduce_sum_permits
      (left_fold Scalar.add Scalar.zero fp32_2p24_ones.reg) :=
  ⟨by decide!, by decide!, by decide!, std_reduce_generalized_sum _ _ _,
    left_fold_generalized_sum _ _ _⟩

/-- C4: for a group size `G` that divides `N` and an index `idx` whose window lies inside the
vector, `reduce_sub_sum<G>(idx)` returns the `std::reduce` sum of exactly the `16 - G`
contiguous lanes `reg[idx*G], ..., reg[idx*G + (16 - G) - 1]`; the window length `16 - G` does
not depend on `N`: a vector of any other lane count with the same lanes in that window gives
the same result. -/
theorem reduce_sub_sum_window {T : Type} [Scalar T] {N : Nat} (v : GenericVec T N)
    (G idx : Nat) (hG : 0 < G) (hdvd : G ∣ N) (hG16 : G ≤ 16) (hwin : idx * G + (16 - G) ≤ N) :
    (v.window (idx * G) (16 - G)).length = 16 - G ∧
    (∀ j : Nat, j < 16 - G → ∃ x : T, v.reg[idx * G + j]? = some x ∧
      (v.window (idx * G) (16 - G))[j]? = some x) ∧
    v.reduce_sub_sum (G : Int) (idx : Int) =
      some (std_reduce Scalar.add Scalar.zero (v.window (idx * G) (16 - G))) ∧
    v.reduce_sub_sum_permits (G : Int) (idx : Int)
      (std_reduce Scalar.add Scalar.zero (v.window (idx * G) (16 - G))) ∧
    (∀ (M : Nat) (w : GenericVec T M), G ∣ M → idx * G + (16 - G) ≤ M →
      w.window (idx * G) (16 - G) = v.window (idx * G) (16 - G) →
      w.reduce_sub_sum (G : Int) (idx : Int) = v.reduce_sub_sum (G : Int) (idx : Int)) := by
  have hlen : (v.window (idx * G) (16 - G)).length = 16 - G := by
    unfold GenericVec.window
    rw [List.length_take, List.length_drop, v.size_eq]
    omega
  have heq := GenericVec.reduce_sub_sum_eq v G idx hG hdvd hG16 hwin
  refine ⟨hlen, ?_, heq, ?_, ?_⟩
  · intro j hj
    have hj2 : idx * G + j < v.reg.length := by rw [v.size_eq]; omega
    refine ⟨v.reg[idx * G + j], List.getElem?_eq_getElem hj2, ?_⟩
    unfold GenericVec.window
    rw [List.getElem?_take_of_lt hj, List.getElem?_drop]
    exact List.getElem?_eq_getElem hj2
  · have h3 : ((idx : Int) * (G : Int)).toNat = idx * G := by
      rw [← Nat.cast_mul]; exact Int.toNat_natCast _
    have h4 : ((16 : Int) - (G : Int)).toNat = 16 - G := by omega
    refine ⟨?_, ?_, ?_⟩
    · intro h
      rcases h with h | h
      · omega
      · apply h
        exact_mod_cast Nat.mod_eq_zero_of_dvd hdvd
    · refine ⟨by positivity, by omega, ?_⟩
      have : ((idx * G + (16 - G) : Nat) : Int) ≤ (N : Int) := by exact_mod_cast hwin
      rw [Nat.cast_add, Nat.cast_mul, Nat.cast_sub hG16] at this
      exact_mod_cast this
    · rw [h3, h4]
      exact std_reduce_generalized_sum _ _ _
  · intro M w hdvdM hwinM hsame
    rw [heq, GenericVec.reduce_sub_sum_eq w G idx hG hdvdM hG16 hwinM, hsame]

theorem reduce_sub_sum_window_witness :
    (0 < 4 ∧ 4 ∣ 16 ∧ 4 ≤ 16 ∧ 1 * 4 + (16 - 4) ≤ 16) ∧
    ((fp32_iota16.window (1 * 4) (16 - 4)).length = 16 - 4 ∧
    (∀ j : Nat, j < 16 - 4 → ∃ x : Flt binary32, fp32_iota16.reg[1 * 4 + j]? = some x ∧
      (fp32_iota16.window (1 * 4) (16 - 4))[j]? = some x) ∧
    fp32_iota16.reduce_sub_sum ((4 : Nat) : Int) ((1 : Nat) : Int) =
      some (std_reduce Scalar.add Scalar.zero (fp32_iota16.window (1 * 4) (16 - 4))) ∧
    fp32_iota16.reduce_sub_sum_permits ((4 : Nat) : Int) ((1 : Nat) : Int)
      (std_reduce Scalar.add Scalar.zero (fp32_iota16.window (1 * 4) (16 - 4))) ∧
    (∀ (M : Nat) (w : GenericVec (Flt binary32) M), 4 ∣ M → 1 * 4 + (16 - 4) ≤ M →
      w.window (1 * 4) (16 - 4) = fp32_iota16.window (1 * 4) (16 - 4) →
      w.reduce_sub_sum ((4 : Nat) : Int) ((1 : Nat) : Int) =
        fp32_iota16.reduce_sub_sum ((4 : Nat) : Int) ((1 : Nat) : Int))) ∧
    fp32_iota16.reduce_sub_sum 4 1 = some (Flt.ofNat binary32 126) :=
  ⟨⟨by decide, by decide, by decide, by decide⟩,
    reduce_sub_sum_window fp32_iota16 4 1 (by decide) (by decide) (by decide) (by decide),
    by decide!⟩

/-! ## Fused multiply-add -/

/-- C5, as the code has it: after `fma(acc, a, b)` every lane `i` of `acc` is
`acc_old[i] + (a_old[i] * b_old[i])`, a lane-wise multiplication followed by a lane-wise
addition, each rounded on its own, and every vector object other than `acc` is unchanged: `a`
and `b` are unchanged when they are objects other than `acc`, and an argument that is the same
object as `acc` holds the new accumulator. With `acc`, `a`, `b` three objects that hold the
broadcasts of 2, 3 and 4, every lane of `acc` is 14 afterwards and `a` and `b` still hold 3
and 4. -/
theorem fma_lanes (s : Nat → FP32Vec16) (acc a b : Nat) :
    fma s acc a b acc = (s acc).add ((s a).mul (s b)) ∧
    (∀ i : Fin 16,
      (fma s acc a b acc).lane i =
        Flt.add ((s acc).lane i) (Flt.mul ((s a).lane i) ((s b).lane i))) ∧
    (∀ r : Nat, r ≠ acc → fma s acc a b r = s r) ∧
    (a ≠ acc → fma s acc a b a = s a) ∧
    (b ≠ acc → fma s acc a b b = s b) ∧
    (a = acc → fma s acc a b a = (s acc).add ((s acc).mul (s b))) ∧
    (b = acc → fma s acc a b b = (s acc).add ((s a).mul (s acc))) ∧
    fma fma_objects 0 1 2 0 = GenericVec.fromScalar (Flt.ofNat binary32 14) ∧
    fma fma_objects 0 1 2 1 = GenericVec.fromScalar (Flt.ofNat binary32 3) ∧
    fma fma_objects 0 1 2 2 = GenericVec.fromScalar (Flt.ofNat binary32 4) ∧
    Flt.ofNat binary32 2 = Flt.ofBits binary32 0x40000000 ∧
    Flt.ofNat binary32 3 = Flt.ofBits binary32 0x40400000 ∧
    Flt.ofNat binary32 4 = Flt.ofBits binary32 0x40800000 ∧
    Flt.ofNat binary32 14 = Flt.ofBits binary32 0x41600000 := by
  have hacc : fma s acc a b acc = (s acc).add ((s a).mul (s b)) := by
    unfold fma; rw [if_pos rfl]
  have hother : ∀ r : Nat, r ≠ acc → fma s acc a b r = s r := by
    intro r hr; unfold fma; rw [if_neg hr]
  refine ⟨hacc, ?_, hother, hother a, hother b, ?_, ?_, by decide!, by decide!, by decide!,
    by decide!, by decide!, by decide!, by decide!⟩
  · intro i
    rw [hacc]
    show ((s acc).binop ((s a).binop (s b) Scalar.mul) Scalar.add).lane i = _
    rw [GenericVec.binop_lane, GenericVec.binop_lane]
    rfl
  · intro h; rw [h] at hacc ⊢; exact hacc
  · intro h; rw [h] at hacc ⊢; exact hacc

/-- C5, as the claim has it, fails: the arguments are non-const references and may name the
same object. With the object at address 0 holding the broadcast of 2 and the object at address
2 the broadcast of 4, the call `fma(v, v, w)` leaves the accumulator at `2 + 2 * 4 = 10`, and
`a`, which is that same object, is not what it was before the call. -/
theorem fma_aliased_changes_a :
    fma_objects 0 = GenericVec.fromScalar (Flt.ofNat binary32 2) ∧
    fma_objects 2 = GenericVec.fromScalar (Flt.ofNat binary32 4) ∧
    fma fma_objects 0 0 2 0 = GenericVec.fromScalar (Flt.ofNat binary32 10) ∧
    fma fma_objects 0 0 2 0 ≠ fma_objects 0 :=
  ⟨by decide!, by decide!, by decide!, by decide!⟩

/-! ## Construction and `save` -/

/-- C6: for every element type, lane count `N` and scalar `s`, constructing the vector from `s`
and saving it into a buffer with room for `N` elements at `ptr` writes exactly `N` elements,
each equal to `s`, and changes nothing else. -/
theorem fromScalar_save {T : Type} {N : Nat} (s : T) (mem : List T) (ptr : Nat)
    (h : ptr + N ≤ mem.length) :
    ∃ out : List T, (GenericVec.fromScalar s : GenericVec T N).save mem ptr = some out ∧
      out = mem.take ptr ++ List.replicate N s ++ mem.drop (ptr + N) ∧
      out.length = mem.length ∧
      (∀ i : Nat, i < N → out[ptr + i]? = some s) ∧
      (∀ j : Nat, j < ptr ∨ ptr + N ≤ j → out[j]? = mem[j]?) := by
  obtain ⟨h1, h2, h3, h4⟩ := GenericVec.save_spec (GenericVec.fromScalar s : GenericVec T N)
    mem ptr h
  refine ⟨_, h1, rfl, h2, ?_, h4⟩
  intro i hi
  rw [h3 i hi]
  simp [GenericVec.fromScalar, hi]

theorem fromScalar_save_witness :
    (1 + 4 ≤ fp32_buffer.length) ∧
    ∃ out : List (Flt binary32),
      (GenericVec.fromScalar (Flt.ofNat binary32 7) : FP32Vec4).save fp32_buffer 1 = some out ∧
      out = fp32_buffer.take 1 ++ List.replicate 4 (Flt.ofNat binary32 7) ++
        fp32_buffer.drop (1 + 4) ∧
      out.length = fp32_buffer.length ∧
      (∀ i : Nat, i < 4 → out[1 + i]? = some (Flt.ofNat binary32 7)) ∧
      (∀ j : Nat, j < 1 ∨ 1 + 4 ≤ j → out[j]? = fp32_buffer[j]?) :=
  ⟨by decide, fromScalar_save (Flt.ofNat binary32 7) fp32_buffer 1 (by decide)⟩

/-- C7: loading a vector from a source buffer that holds `N` elements at `sp` and saving it to a
destination buffer with room for `N` elements at `dp` makes destination element `dp + i` equal
to source element `sp + i` for every `i < N`, in lane order, and leaves every other element of
the destination unchanged. -/
theorem fromPtr_save {T : Type} {N : Nat} (src dst : List T) (sp dp : Nat)
    (hs : sp + N ≤ src.length) (hd : dp + N ≤ dst.length) :
    ∃ (v : GenericVec T N) (out : List T),
      GenericVec.fromPtr src sp = some v ∧ v.save dst dp = some out ∧
      out.length = dst.length ∧
      (∀ i : Nat, i < N → ∃ x : T, src[sp + i]? = some x ∧ v.reg[i]? = some x ∧
        out[dp + i]? = some x) ∧
      (∀ j : Nat, j < dp ∨ dp + N ≤ j → out[j]? = dst[j]?) := by
  have hlen : ((src.drop sp).take N).length = N := by
    rw [List.length_take, List.length_drop]; omega
  obtain ⟨h1, h2, h3, h4⟩ := GenericVec.save_spec (⟨(src.drop sp).take N, hlen⟩ : GenericVec T N)
    dst dp hd
  refine ⟨⟨(src.drop sp).take N, hlen⟩, _, ?_, h1, h2, ?_, h4⟩
  · unfold GenericVec.fromPtr
    rw [dif_pos hs]
  · intro i hi
    have hi2 : sp + i < src.length := by omega
    have hv : ((src.drop sp).take N)[i]? = some src[sp + i] := by
      rw [List.getElem?_take_of_lt hi, List.getElem?_drop]
      exact List.getElem?_eq_getElem hi2
    refine ⟨src[sp + i], List.getElem?_eq_getElem hi2, hv, ?_⟩
    rw [h3 i hi]
    exact hv

theorem fromPtr_save_witness :
    (1 + 4 ≤ fp32_buffer.length ∧ 2 + 4 ≤ (List.replicate 7 (Flt.ofNat binary32 0)).length) ∧
    ∃ (v : FP32Vec4) (out : List (Flt binary32)),
      GenericVec.fromPtr fp32_buffer 1 = some v ∧
      v.save (List.replicate 7 (Flt.ofNat binary32 0)) 2 = some out ∧
      out.length = (List.replicate 7 (Flt.ofNat binary32 0)).length ∧
      (∀ i : Nat, i < 4 → ∃ x : Flt binary32, fp32_buffer[1 + i]? = some x ∧
        v.reg[i]? = some x ∧ out[2 + i]? = some x) ∧
      (∀ j : Nat, j < 2 ∨ 2 + 4 ≤ j →
        out[j]? = (List.replicate 7 (Flt.ofNat binary32 0))[j]?) :=
  ⟨⟨by decide, by decide⟩,
    fromPtr_save fp32_buffer (List.replicate 7 (Flt.ofNat binary32 0)) 1 2 (by decide)
      (by decide)⟩

/-! ## Addition and subtraction -/

/-- C8: for vectors `a` and `b` of the same shape whose lane additions `a[i] + b[i]` and lane
subtractions `(a[i] + b[i]) - b[i]` are exact (no rounding occurs), `(a + b) - b` equals `a` in
every lane: the lane has the value of `a[i]`, and it is the very same float unless `a[i]` is a
zero, whose sign need not be kept. -/
theorem add_sub_cancel_exact {fmt : FloatFormat} [Scalar (Flt fmt)] {N : Nat}
    (a b : GenericVec (Flt fmt) N)
    (hadd : ∀ i : Fin N, Flt.ExactAdd (a.lane i) (b.lane i))
    (hsub : ∀ i : Fin N, Flt.ExactSub ((a.add b).lane i) (b.lane i)) :
    ∀ i : Fin N,
      Flt.value (((a.add b).sub b).lane i) = Flt.value (a.lane i) ∧
      (Flt.value (a.lane i)).isSome ∧
      (((a.add b).sub b).lane i = a.lane i ∨ Flt.value (a.lane i) = some 0) := by
  intro i
  have h1 := hadd i
  have h2 := hsub i
  have hc : (a.add b).lane i = Scalar.add (a.lane i) (b.lane i) :=
    GenericVec.binop_lane a b Scalar.add i
  have hr : ((a.add b).sub b).lane i = Scalar.sub ((a.add b).lane i) (b.lane i) :=
    GenericVec.binop_lane (a.add b) b Scalar.sub i
  rw [hc] at h2 hr
  rw [hr]
  unfold Flt.ExactAdd at h1
  unfold Flt.ExactSub at h2
  obtain ⟨h1s, h1e⟩ := h1
  obtain ⟨h2s, h2e⟩ := h2
  cases hva : Flt.value (a.lane i) with
  | none => rw [hva] at h1e; rw [h1e] at h1s; simp at h1s
  | some va =>
    cases hvb : Flt.value (b.lane i) with
    | none =>
      rw [hva, hvb] at h1e; rw [h1e] at h1s; simp at h1s
    | some vb =>
      rw [hva, hvb] at h1e
      rw [h1e, hvb] at h2e
      have hval : Flt.value (Scalar.sub (Scalar.add (a.lane i) (b.lane i)) (b.lane i)) =
          some va := by
        rw [h2e]; simp
      refine ⟨hval, rfl, ?_⟩
      by_cases hz : va = 0
      · right; rw [hz]
      · left; exact Flt.value_inj _ _ va hz hval hva

theorem add_sub_cancel_exact_witness :
    ((∀ i : Fin 4, Flt.ExactAdd (fp32_a.lane i) (fp32_b.lane i)) ∧
      (∀ i : Fin 4, Flt.ExactSub ((fp32_a.add fp32_b).lane i) (fp32_b.lane i))) ∧
    ∀ i : Fin 4,
      Flt.value (((fp32_a.add fp32_b).sub fp32_b).lane i) = Flt.value (fp32_a.lane i) ∧
      (Flt.value (fp32_a.lane i)).isSome ∧
      (((fp32_a.add fp32_b).sub fp32_b).lane i = fp32_a.lane i ∨
        Flt.value (fp32_a.lane i) = some 0) :=
  ⟨⟨by decide!, by decide!⟩, add_sub_cancel_exact fp32_a fp32_b (by decide!) (by decide!)⟩

/-! ## Reductions of all-ones vectors -/

/-- C9: for each supported lane count `N` (4, 8 and 16, in each element type that has a vector
of that size), `reduce_sum()` of the `N`-lane vector whose lanes all hold 1 returns exactly
`N`. -/
theorem reduce_sum_all_ones :
    (GenericVec.fromScalar (Flt.ofNat binary32 1) : FP32Vec4).reduce_sum_returns
      (Flt.ofNat binary32 4) ∧
    (GenericVec.fromScalar (Flt.ofNat binary32 1) : FP32Vec8).reduce_sum_returns
      (Flt.ofNat binary32 8) ∧
    (GenericVec.fromScalar (Flt.ofNat binary32 1) : FP32Vec16).reduce_sum_returns
      (Flt.ofNat binary32 16) ∧
    (GenericVec.fromScalar (Flt.ofNat binary16 1) : FP16Vec8).reduce_sum_returns
      (Flt.ofNat binary16 8) ∧
    (GenericVec.fromScalar (Flt.ofNat binary16 1) : FP16Vec16).reduce_sum_returns
      (Flt.ofNat binary16 16) ∧
    (GenericVec.fromScalar (Flt.ofNat bfloat16 1) : BF16Vec8).reduce_sum_returns
      (Flt.ofNat bfloat16 8) ∧
    (GenericVec.fromScalar (Flt.ofNat bfloat16 1) : BF16Vec16).reduce_sum_returns
      (Flt.ofNat bfloat16 16) :=
  ⟨GenericVec.reduce_sum_ones (Flt.ofNat binary32) 16 add_small_binary32 (by decide!)
      (by decide!) 4 (by decide),
    GenericVec.reduce_sum_ones (Flt.ofNat binary32) 16 add_small_binary32 (by decide!)
      (by decide!) 8 (by decide),
    GenericVec.reduce_sum_ones (Flt.ofNat binary32) 16 add_small_binary32 (by decide!)
      (by decide!) 16 (by decide),
    GenericVec.reduce_sum_ones (Flt.ofNat binary16) 16 add_small_binary16 (by decide!)
      (by decide!) 8 (by decide),
    GenericVec.reduce_sum_ones (Flt.ofNat binary16) 16 add_small_binary16 (by decide!)
      (by decide!) 16 (by decide),
    GenericVec.reduce_sum_ones (Flt.ofNat bfloat16) 16 add_small_bfloat16 (by decide!)
      (by decide!) 8 (by decide),
    GenericVec.reduce_sum_ones (Flt.ofNat bfloat16) 16 add_small_bfloat16 (by decide!)
      (by decide!) 16 (by decide)⟩

/-- C10: for every group size `G` that divides 16, `reduce_sub_sum<G>(0)` on the 16-lane vector
whose lanes all hold 1 returns exactly `16 - G` (0 for `G = 16`, where the window is empty), in
each of the three element types. -/
theorem reduce_sub_sum_all_ones (G : Nat) (hG : G ∣ 16) :
    (GenericVec.fromScalar (Flt.ofNat binary32 1) : FP32Vec16).reduce_sub_sum_returns (G : Int) 0
      (Flt.ofNat binary32 (16 - G)) ∧
    (GenericVec.fromScalar (Flt.ofNat binary16 1) : FP16Vec16).reduce_sub_sum_returns (G : Int) 0
      (Flt.ofNat binary16 (16 - G)) ∧
    (GenericVec.fromScalar (Flt.ofNat bfloat16 1) : BF16Vec16).reduce_sub_sum_returns (G : Int) 0
      (Flt.ofNat bfloat16 (16 - G)) :=
  ⟨GenericVec.reduce_sub_sum_ones (Flt.ofNat binary32) add_small_binary32 (by decide!)
      (by decide!) G hG,
    GenericVec.reduce_sub_sum_ones (Flt.ofNat binary16) add_small_binary16 (by decide!)
      (by decide!) G hG,
    GenericVec.reduce_sub_sum_ones (Flt.ofNat bfloat16) add_small_bfloat16 (by decide!)
      (by decide!) G hG⟩

theorem reduce_sub_sum_all_ones_witness :
    (16 ∣ 16) ∧
    ((GenericVec.fromScalar (Flt.ofNat binary32 1) : FP32Vec16).reduce_sub_sum_returns
      ((16 : Nat) : Int) 0 (Flt.ofNat binary32 (16 - 16)) ∧
    (GenericVec.fromScalar (Flt.ofNat binary16 1) : FP16Vec16).reduce_sub_sum_returns
      ((16 : Nat) : Int) 0 (Flt.ofNat binary16 (16 - 16)) ∧
    (GenericVec.fromScalar (Flt.ofNat bfloat16 1) : BF16Vec16).reduce_sub_sum_returns
      ((16 : Nat) : Int) 0 (Flt.ofNat bfloat16 (16 - 16))) ∧
    (GenericVec.fromScalar (Flt.ofNat binary32 1) : FP32Vec16).reduce_sub_sum 16 0 =
      some (Flt.fin false 0) ∧
    (GenericVec.fromScalar (Flt.ofNat binary32 1) : FP32Vec16).reduce_sub_sum 4 0 =
      some (Flt.ofNat binary32 12) :=
  ⟨by decide, reduce_sub_sum_all_ones 16 (by decide), by decide!, by decide!⟩

/-! ## The type dispatch table -/

/-- C11: the dispatch table maps `float` to a vector of 8 lanes, `c10::Half` to a vector of 16
lanes and `c10::BFloat16` to a vector of 8 lanes, so that `get_elem_num()` of the three is 8,
16 and 8, and it maps every other element type to `void`, not to a vector of some default
width. -/
theorem vec_t_table :
    vec_t ElemType.float = some VecShape.FP32Vec8 ∧
    vec_t ElemType.c10_Half = some VecShape.FP16Vec16 ∧
    vec_t ElemType.c10_BFloat16 = some VecShape.BF16Vec8 ∧
    (vec_t ElemType.float).map VecShape.get_elem_num = some 8 ∧
    (vec_t ElemType.c10_Half).map VecShape.get_elem_num = some 16 ∧
    (vec_t ElemType.c10_BFloat16).map VecShape.get_elem_num = some 8 ∧
    (GenericVec.fromZero : FP32Vec8).get_elem_num = 8 ∧
    (GenericVec.fromZero : FP16Vec16).get_elem_num = 16 ∧
    (GenericVec.fromZero : BF16Vec8).get_elem_num = 8 ∧
    (∀ t : ElemType, vec_t t = none ↔
      (t ≠ ElemType.float ∧ t ≠ ElemType.c10_Half ∧ t ≠ ElemType.c10_BFloat16)) ∧
    vec_t ElemType.std_float16_t = none := by
  refine ⟨rfl, rfl, rfl, rfl, rfl, rfl, rfl, rfl, rfl, ?_, rfl⟩
  intro t
  cases t <;> simp [vec_t, VecType]

/-! ## Lane-wise operations -/

/-- C12: for vectors `a` and `b` of the same element type and lane count, lane `i` of `a + b`,
`a - b`, `a * b` and `a / b` is the scalar operation on lane `i` of `a` and lane `i` of `b`,
and it depends on no other lane: operands that agree with `a` and `b` in lane `i` give the same
lane `i`. The operands are values; no operation changes them. -/
theorem binop_lanes {T : Type} [Scalar T] {N : Nat} (a b : GenericVec T N) (i : Fin N) :
    (a.add b).lane i = Scalar.add (a.lane i) (b.lane i) ∧
    (a.sub b).lane i = Scalar.sub (a.lane i) (b.lane i) ∧
    (a.mul b).lane i = Scalar.mul (a.lane i) (b.lane i) ∧
    (a.div b).lane i = Scalar.div (a.lane i) (b.lane i) ∧
    (∀ c d : GenericVec T N, c.lane i = a.lane i → d.lane i = b.lane i →
      (c.add d).lane i = (a.add b).lane i ∧ (c.sub d).lane i = (a.sub b).lane i ∧
      (c.mul d).lane i = (a.mul b).lane i ∧ (c.div d).lane i = (a.div b).lane i) := by
  have hadd : ∀ x y : GenericVec T N, (x.add y).lane i = Scalar.add (x.lane i) (y.lane i) :=
    fun x y => GenericVec.binop_lane x y Scalar.add i
  have hsub : ∀ x y : GenericVec T N, (x.sub y).lane i = Scalar.sub (x.lane i) (y.lane i) :=
    fun x y => GenericVec.binop_lane x y Scalar.sub i
  have hmul : ∀ x y : GenericVec T N, (x.mul y).lane i = Scalar.mul (x.lane i) (y.lane i) :=
    fun x y => GenericVec.binop_lane x y Scalar.mul i
  have hdiv : ∀ x y : GenericVec T N, (x.div y).lane i = Scalar.div (x.lane i) (y.lane i) :=
    fun x y => GenericVec.binop_lane x y Scalar.div i
  refine ⟨hadd a b, hsub a b, hmul a b, hdiv a b, ?_⟩
  intro c d hc hd
  rw [hadd, hsub, hmul, hdiv, hadd, hsub, hmul, hdiv, hc, hd]
  exact ⟨rfl, rfl, rfl, rfl⟩

/-- C13: for every vector `v` of `N` lanes and every unary function `op`, `v.apply(op)` is a
new vector of `N` lanes whose lane `i` is `op(v.reg[i])`; it depends on no other lane of `v`,
and `v` is a value that the call does not change. -/
theorem apply_lanes {T : Type} {N : Nat} (v : GenericVec T N) (op : T → T) (i : Fin N) :
    (v.apply op).lane i = op (v.lane i) ∧
    (v.apply op).reg.length = N ∧
    (v.apply op).reg = v.reg.map op ∧
    (∀ w : GenericVec T N, w.lane i = v.lane i → (w.apply op).lane i = (v.apply op).lane i) := by
  have key : ∀ x : GenericVec T N, (x.apply op).lane i = op (x.lane i) := by
    intro x
    have h := GenericVec.lane_eq_getElem (x.apply op) i
    have hx := GenericVec.lane_eq_getElem x i
    simp only [GenericVec.apply, List.getElem?_map, hx, Option.map_some'] at h
    exact (Option.some.inj h).symm
  refine ⟨key v, (v.apply op).size_eq, rfl, ?_⟩
  intro w hw
  rw [key, key, hw]

/-! ## Properties of the truncating store -/

/-- C14: the truncating store is biased toward zero. For every 32-bit pattern `x`, with `t` the
stored 16-bit pattern and `w = t << 16` its widening back to 32 bits: `w` has the sign bit of
`x`, the magnitude field (low 31 bits) of `w` is at most that of `x`, and the difference of the
magnitudes, like `x - w` itself, is less than `2 ^ 16`. -/
theorem storeFP32_BFloat16_toward_zero (x : Nat) (hx : x < 2 ^ 32) :
    storeFP32_BFloat16 Endian.little x < 2 ^ 16 ∧
    (storeFP32_BFloat16 Endian.little x <<< 16) / 2 ^ 31 = x / 2 ^ 31 ∧
    (storeFP32_BFloat16 Endian.little x <<< 16) % 2 ^ 31 ≤ x % 2 ^ 31 ∧
    x % 2 ^ 31 - (storeFP32_BFloat16 Endian.little x <<< 16) % 2 ^ 31 < 2 ^ 16 ∧
    (storeFP32_BFloat16 Endian.little x <<< 16) ≤ x ∧
    x - (storeFP32_BFloat16 Endian.little x <<< 16) < 2 ^ 16 := by
  rw [storeFP32_BFloat16_little x hx, Nat.shiftLeft_eq]
  norm_num at hx ⊢
  omega

theorem storeFP32_BFloat16_toward_zero_witness :
    (0xBF7FFFFF < 2 ^ 32) ∧
    (storeFP32_BFloat16 Endian.little 0xBF7FFFFF < 2 ^ 16 ∧
    (storeFP32_BFloat16 Endian.little 0xBF7FFFFF <<< 16) / 2 ^ 31 = 0xBF7FFFFF / 2 ^ 31 ∧
    (storeFP32_BFloat16 Endian.little 0xBF7FFFFF <<< 16) % 2 ^ 31 ≤ 0xBF7FFFFF % 2 ^ 31 ∧
    0xBF7FFFFF % 2 ^ 31 - (storeFP32_BFloat16 Endian.little 0xBF7FFFFF <<< 16) % 2 ^ 31
      < 2 ^ 16 ∧
    (storeFP32_BFloat16 Endian.little 0xBF7FFFFF <<< 16) ≤ 0xBF7FFFFF ∧
    0xBF7FFFFF - (storeFP32_BFloat16 Endian.little 0xBF7FFFFF <<< 16) < 2 ^ 16) ∧
    storeFP32_BFloat16 Endian.little 0xBF7FFFFF = 0xBF7F :=
  ⟨by decide, storeFP32_BFloat16_toward_zero 0xBF7FFFFF (by decide), by decide⟩

/-- C15: with the `float` argument seen as its four bytes in memory, the half-word that
`storeFP32<BFloat16>` copies, the bytes at offsets 2 and 3, is the high-order 16 bits of the
32-bit value on a little-endian layout and the low-order 16 bits on a big-endian layout. -/
theorem storeFP32_BFloat16_endian (x : Nat) (hx : x < 2 ^ 32) :
    (∀ e : Endian,
      word32 e ((bytes32 e x).getD 0 0) ((bytes32 e x).getD 1 0) ((bytes32 e x).getD 2 0)
        ((bytes32 e x).getD 3 0) = x ∧
      storeFP32_BFloat16 e x = word16 e ((bytes32 e x).getD 2 0) ((bytes32 e x).getD 3 0)) ∧
    storeFP32_BFloat16 Endian.little x = x / 2 ^ 16 ∧
    storeFP32_BFloat16 Endian.big x = x % 2 ^ 16 := by
  refine ⟨?_, storeFP32_BFloat16_little x hx, storeFP32_BFloat16_big x⟩
  intro e
  refine ⟨?_, rfl⟩
  cases e <;>
    simp only [bytes32, word32, List.getD_cons_succ, List.getD_cons_zero] <;>
    norm_num at hx ⊢ <;> omega

theorem storeFP32_BFloat16_endian_witness :
    (0x3F801234 < 2 ^ 32) ∧
    ((∀ e : Endian,
      word32 e ((bytes32 e 0x3F801234).getD 0 0) ((bytes32 e 0x3F801234).getD 1 0)
        ((bytes32 e 0x3F801234).getD 2 0) ((bytes32 e 0x3F801234).getD 3 0) = 0x3F801234 ∧
      storeFP32_BFloat16 e 0x3F801234 =
        word16 e ((bytes32 e 0x3F801234).getD 2 0) ((bytes32 e 0x3F801234).getD 3 0)) ∧
    storeFP32_BFloat16 Endian.little 0x3F801234 = 0x3F801234 / 2 ^ 16 ∧
    storeFP32_BFloat16 Endian.big 0x3F801234 = 0x3F801234 % 2 ^ 16) ∧
    storeFP32_BFloat16 Endian.little 0x3F801234 = 0x3F80 ∧
    storeFP32_BFloat16 Endian.big 0x3F801234 = 0x1234 :=
  ⟨by decide, storeFP32_BFloat16_endian 0x3F801234 (by decide), by decide, by decide⟩

/-! ## Where `reduce_sub_sum` stays inside the vector -/

/-- C17: for a lane count `N` of 4, 8 or 16, a group size `G ≥ 1` that divides `N` and an index
`idx ≥ 0`, the window of `reduce_sub_sum<G>(idx)`, the lanes from `idx*G` up to
`idx*G + (16 - G)`, lies inside the `N` lanes, and the call is well defined, if and only if
`N = 16` and `idx ≤ 1`, or `N = 8`, `G = 8` and `idx = 0`; in every other case the window ends
past lane `N - 1` and the call is undefined. -/
theorem reduce_sub_sum_in_bounds {T : Type} [Scalar T] (N G idx : Nat)
    (hN : N = 4 ∨ N = 8 ∨ N = 16) (hG : 1 ≤ G) (hdvd : G ∣ N) (v : GenericVec T N) :
    (idx * G + (16 - G) ≤ N ↔ (N = 16 ∧ idx ≤ 1) ∨ (N = 8 ∧ G = 8 ∧ idx = 0)) ∧
    ((v.reduce_sub_sum (G : Int) (idx : Int)).isSome = true ↔
      (N = 16 ∧ idx ≤ 1) ∨ (N = 8 ∧ G = 8 ∧ idx = 0)) ∧
    (¬ ((N = 16 ∧ idx ≤ 1) ∨ (N = 8 ∧ G = 8 ∧ idx = 0)) →
      N < idx * G + (16 - G) ∧ v.reduce_sub_sum (G : Int) (idx : Int) = none) := by
  have hGle : G ≤ N := Nat.le_of_dvd (by omega) hdvd
  have hG16 : G ≤ 16 := by omega
  have harith : idx * G + (16 - G) ≤ N ↔ (N = 16 ∧ idx ≤ 1) ∨ (N = 8 ∧ G = 8 ∧ idx = 0) := by
    rcases hN with h | h | h <;> subst h <;> interval_cases G <;> omega
  have hsome := GenericVec.reduce_sub_sum_isSome v G idx (by omega) hdvd hG16
  refine ⟨harith, hsome.trans harith, ?_⟩
  intro hnot
  have hout : ¬ idx * G + (16 - G) ≤ N := fun h => hnot (harith.mp h)
  refine ⟨by omega, ?_⟩
  cases hr : v.reduce_sub_sum (G : Int) (idx : Int) with
  | none => rfl
  | some r =>
    exfalso
    apply hout
    apply hsome.mp
    rw [hr]
    rfl

theorem reduce_sub_sum_in_bounds_witness :
    ((8 = 4 ∨ 8 = 8 ∨ 8 = 16) ∧ 1 ≤ 4 ∧ 4 ∣ 8) ∧
    ((0 * 4 + (16 - 4) ≤ 8 ↔ (8 = 16 ∧ 0 ≤ 1) ∨ (8 = 8 ∧ 4 = 8 ∧ 0 = 0)) ∧
    (((GenericVec.fromScalar (Flt.ofNat binary32 1) : FP32Vec8).reduce_sub_sum
        ((4 : Nat) : Int) ((0 : Nat) : Int)).isSome = true ↔
      (8 = 16 ∧ 0 ≤ 1) ∨ (8 = 8 ∧ 4 = 8 ∧ 0 = 0)) ∧
    (¬ ((8 = 16 ∧ 0 ≤ 1) ∨ (8 = 8 ∧ 4 = 8 ∧ 0 = 0)) →
      8 < 0 * 4 + (16 - 4) ∧
      (GenericVec.fromScalar (Flt.ofNat binary32 1) : FP32Vec8).reduce_sub_sum
        ((4 : Nat) : Int) ((0 : Nat) : Int) = none)) ∧
    (GenericVec.fromScalar (Flt.ofNat binary32 1) : FP32Vec8).reduce_sub_sum 4 0 = none ∧
    (GenericVec.fromScalar (Flt.ofNat binary32 1) : FP32Vec8).reduce_sub_sum 8 0 =
      some (Flt.ofNat binary32 8) :=
  ⟨⟨by decide, by decide, by decide⟩,
    reduce_sub_sum_in_bounds 8 4 0 (by decide) (by decide) (by decide)
      (GenericVec.fromScalar (Flt.ofNat binary32 1)),
    by decide!, by decide!⟩

/-! ## Special values and exactness of the truncating store -/

/-- C18: the truncating store does not preserve NaN. For a `float` NaN pattern `x` whose upper
7 mantissa bits are zero the stored pattern is the `bfloat16` infinity of the same sign,
`0x7F80` or `0xFF80`; for a NaN pattern with any of the upper 7 mantissa bits set the stored
pattern is a `bfloat16` NaN. -/
theorem storeFP32_BFloat16_nan (x : Nat) (hx : x < 2 ^ 32)
    (hnan : Flt.ofBits binary32 x = Flt.nan) :
    (x / 2 ^ 16 % 2 ^ 7 = 0 →
      storeFP32_BFloat16 Endian.little x = 2 ^ 15 * (x / 2 ^ 31) + 0x7F80 ∧
      (storeFP32_BFloat16 Endian.little x = 0x7F80 ∨
        storeFP32_BFloat16 Endian.little x = 0xFF80) ∧
      Flt.ofBits bfloat16 (storeFP32_BFloat16 Endian.little x) =
        Flt.inf (decide (x / 2 ^ 31 = 1))) ∧
    (x / 2 ^ 16 % 2 ^ 7 ≠ 0 →
      Flt.ofBits bfloat16 (storeFP32_BFloat16 Endian.little x) = Flt.nan) := by
  have hfield : x / 2 ^ 23 % 2 ^ 8 = 255 ∧ x % 2 ^ 23 ≠ 0 := by
    unfold Flt.ofBits at hnan
    simp only [binary32] at hnan
    norm_num at hnan
    split_ifs at hnan with h1 h2
    exact ⟨by norm_num; exact h1, by norm_num; exact h2⟩
  rw [storeFP32_BFloat16_little x hx]
  obtain ⟨he, hf⟩ := hfield
  norm_num at hx he hf
  constructor
  · intro hz
    norm_num at hz
    have hval : x / 2 ^ 16 = 2 ^ 15 * (x / 2 ^ 31) + 0x7F80 := by
      norm_num
      omega
    refine ⟨hval, ?_, ?_⟩
    · norm_num
      omega
    · unfold Flt.ofBits
      simp only [bfloat16]
      norm_num
      have e1 : x / 65536 / 128 % 256 = 255 := by omega
      have e2 : x / 65536 % 128 = 0 := by omega
      have e3 : x / 65536 / 32768 = x / 2147483648 := by omega
      rw [if_pos e1, if_pos e2, e3]
      have : x / 2147483648 < 2 := by omega
      congr 1
      simp only [decide_eq_decide]
      omega
  · intro hz
    norm_num at hz
    unfold Flt.ofBits
    simp only [bfloat16]
    norm_num
    have e1 : x / 65536 / 128 % 256 = 255 := by omega
    rw [if_pos e1, if_neg hz]

theorem storeFP32_BFloat16_nan_witness :
    (0xFF800001 < 2 ^ 32 ∧ Flt.ofBits binary32 0xFF800001 = Flt.nan) ∧
    ((0xFF800001 / 2 ^ 16 % 2 ^ 7 = 0 →
      storeFP32_BFloat16 Endian.little 0xFF800001 = 2 ^ 15 * (0xFF800001 / 2 ^ 31) + 0x7F80 ∧
      (storeFP32_BFloat16 Endian.little 0xFF800001 = 0x7F80 ∨
        storeFP32_BFloat16 Endian.little 0xFF800001 = 0xFF80) ∧
      Flt.ofBits bfloat16 (storeFP32_BFloat16 Endian.little 0xFF800001) =
        Flt.inf (decide (0xFF800001 / 2 ^ 31 = 1))) ∧
    (0xFF800001 / 2 ^ 16 % 2 ^ 7 ≠ 0 →
      Flt.ofBits bfloat16 (storeFP32_BFloat16 Endian.little 0xFF800001) = Flt.nan)) ∧
    storeFP32_BFloat16 Endian.little 0x7F800001 = 0x7F80 ∧
    Flt.ofBits binary32 0x7F800001 = Flt.nan ∧
    Flt.ofBits bfloat16 0x7F80 = Flt.inf false ∧
    storeFP32_BFloat16 Endian.little 0x7FC00000 = 0x7FC0 ∧
    Flt.ofBits bfloat16 0x7FC0 = Flt.nan :=
  ⟨⟨by decide, by decide!⟩, storeFP32_BFloat16_nan 0xFF800001 (by decide) (by decide!),
    by decide, by decide!, by decide!, by decide, by decide!⟩

/-- C19: the truncating store is exact on representable values and idempotent. For every 32-bit
pattern `x`, widening the stored pattern back (`t << 16`) gives `x` again if and only if the
low 16 bits of `x` are zero; and for every 16-bit pattern `t`, storing the widened `t << 16`
gives `t` again. -/
theorem storeFP32_BFloat16_exact (x t : Nat) (hx : x < 2 ^ 32) (ht : t < 2 ^ 16) :
    ((storeFP32_BFloat16 Endian.little x <<< 16) = x ↔ x % 2 ^ 16 = 0) ∧
    storeFP32_BFloat16 Endian.little (t <<< 16) = t ∧
    storeFP32_BFloat16 Endian.little
      (storeFP32_BFloat16 Endian.little x <<< 16) = storeFP32_BFloat16 Endian.little x := by
  have hw : t <<< 16 < 2 ^ 32 := by
    rw [Nat.shiftLeft_eq]; norm_num at ht ⊢; omega
  have hs : storeFP32_BFloat16 Endian.little x <<< 16 < 2 ^ 32 := by
    rw [storeFP32_BFloat16_little x hx, Nat.shiftLeft_eq]; norm_num at hx ⊢; omega
  rw [storeFP32_BFloat16_little _ hs, storeFP32_BFloat16_little _ hw,
    storeFP32_BFloat16_little x hx]
  simp only [Nat.shiftLeft_eq]
  norm_num at hx ht ⊢
  omega

theorem storeFP32_BFloat16_exact_witness :
    (0x3F7FFFFF < 2 ^ 32 ∧ 0x3F80 < 2 ^ 16) ∧
    (((storeFP32_BFloat16 Endian.little 0x3F7FFFFF <<< 16) = 0x3F7FFFFF ↔
      0x3F7FFFFF % 2 ^ 16 = 0) ∧
    storeFP32_BFloat16 Endian.little (0x3F80 <<< 16) = 0x3F80 ∧
    storeFP32_BFloat16 Endian.little
      (storeFP32_BFloat16 Endian.little 0x3F7FFFFF <<< 16) =
        storeFP32_BFloat16 Endian.little 0x3F7FFFFF) ∧
    (storeFP32_BFloat16 Endian.little 0x3F7FFFFF <<< 16) = 0x3F7F0000 :=
  ⟨⟨by decide, by decide⟩,
    storeFP32_BFloat16_exact 0x3F7FFFFF 0x3F80 (by decide) (by decide), by decide⟩

/-! ## Regrouping twice -/

/-- C20: with the element type unchanged, regrouping composes and has an identity. For a vector
`b` of `BN` lanes and lane counts `M` and `N` with `BN` dividing `M` and `M` dividing `N`,
regrouping `b` to `M` lanes and the result to `N` lanes gives the same vector as regrouping `b`
to `N` lanes at once, and regrouping `b` to `BN` lanes gives `b`. -/
theorem fromVec_compose {T : Type} {BN : Nat} (b : GenericVec T BN) (M N : Nat) (hN : 0 < N)
    (h1 : BN ∣ M) (h2 : M ∣ N) :
    ∃ (m : GenericVec T M) (r : GenericVec T N),
      GenericVec.fromVec id b = some m ∧
      GenericVec.fromVec id m = some r ∧
      (GenericVec.fromVec id b : Option (GenericVec T N)) = some r ∧
      (GenericVec.fromVec id b : Option (GenericVec T BN)) = some b := by
  have hM : 0 < M := Nat.pos_of_dvd_of_pos h2 hN
  have hBN : 0 < BN := Nat.pos_of_dvd_of_pos h1 hM
  refine ⟨_, _, GenericVec.fromVec_eq id b M hBN h1, ?_,
    GenericVec.fromVec_eq id b N hBN (Nat.dvd_trans h1 h2), ?_⟩
  · rw [GenericVec.fromVec_eq id _ N hM h2]
    apply congrArg some
    apply GenericVec.ext_reg
    dsimp only
    apply congrArg List.ofFn
    funext k
    simp only [id]
    rw [GenericVec.lane_ofFn]
    congr 1
    exact Fin.ext (Nat.mod_mod_of_dvd k.val h1)
  · rw [GenericVec.fromVec_eq id b BN hBN (Nat.dvd_refl BN)]
    apply congrArg some
    apply GenericVec.ext_reg
    dsimp only
    apply List.ext_getElem?
    intro k
    by_cases hk : k < BN
    · rw [List.getElem?_ofFn]
      simp only [List.ofFnNthVal, hk, dite_true, id]
      have := GenericVec.lane_eq_getElem b ⟨k, hk⟩
      rw [this]
      congr 2
      exact Fin.ext (Nat.mod_eq_of_lt hk)
    · rw [List.getElem?_eq_none (by simp; omega),
        List.getElem?_eq_none (by rw [b.size_eq]; omega)]

theorem fromVec_compose_witness :
    (0 < 16 ∧ 4 ∣ 8 ∧ 8 ∣ 16) ∧
    ∃ (m : FP32Vec8) (r : FP32Vec16),
      GenericVec.fromVec id fp32_1234 = some m ∧
      GenericVec.fromVec id m = some r ∧
      (GenericVec.fromVec id fp32_1234 : Option FP32Vec16) = some r ∧
      (GenericVec.fromVec id fp32_1234 : Option FP32Vec4) = some fp32_1234 :=
  ⟨⟨by decide, by decide, by decide⟩,
    fromVec_compose fp32_1234 8 16 (by decide) (by decide) (by decide)⟩

end vec_op
